import Mathlib

/-!
Shallow embedding of the graph-analytics core of MemeDiffusion
(src/analyze.py): the author-subreddit bipartite graph builder, the
projection onto authors, the graph metrics and the influencer ranking.
Graphs follow the networkx data model: insertion-ordered node and edge
dictionaries.  Numeric values are modelled by rationals; a Python
exception is modelled by the error case of Except.
-/

abbrev Node := String

/-- A post record (one DataFrame row) as consumed by build_bipartite_graph.
For author and subreddit, none models a missing or NaN field.
For likeCount, none models a missing or NaN value, some none a value on
which float() raises (non-numeric), and some (some w) a numeric value.
For category, none models a missing or NaN content_type. -/
structure Record where
  author : Option Node
  subreddit : Option Node
  likeCount : Option (Option ℚ)
  category : Option String
deriving DecidableEq, Repr

/-- Python dict assignment d[k] = v on an insertion-ordered association
list: replace the value at key k in place when present, else append. -/
def dset {α : Type} : List (String × α) → String → α → List (String × α)
  | [], k, v => [(k, v)]
  | p :: l, k, v => if p.1 == k then (k, v) :: l else p :: dset l k v

/-- Python dict lookup d.get(k). -/
def dget {α : Type} (l : List (String × α)) (k : String) : Option α :=
  (l.find? (fun p => p.1 == k)).map (fun p => p.2)

/-- ekey p u v holds when the stored endpoint pair p denotes the unordered
pair of u and v (networkx edges are undirected). -/
def ekey (p : Node × Node) (u v : Node) : Bool :=
  (p.1 == u && p.2 == v) || (p.1 == v && p.2 == u)

abbrev EdgeList := List ((Node × Node) × ℚ)

/-- Set the weight of the undirected edge u-v: replace the entry for the
unordered pair in place when it exists, else append a new entry oriented
(u, v).  Models networkx add_edge on the adjacency dictionaries. -/
def eset : EdgeList → Node → Node → ℚ → EdgeList
  | [], u, v, w => [((u, v), w)]
  | p :: es, u, v, w => if ekey p.1 u v then (p.1, w) :: es else p :: eset es u v w

/-- A networkx Graph: the node dictionary (node name to its bipartite
attribute; none when the node was created without the attribute) and the
edge dictionary keyed by unordered endpoint pairs. -/
structure NXGraph where
  nodes : List (Node × Option String)
  edges : EdgeList
deriving DecidableEq, Repr

def NXGraph.empty : NXGraph := ⟨[], []⟩

def NXGraph.hasNode (G : NXGraph) (n : Node) : Bool :=
  G.nodes.any (fun p => p.1 == n)

/-- The bipartite attribute stored for node n (outer none: no such node). -/
def NXGraph.nodeAttr (G : NXGraph) (n : Node) : Option (Option String) :=
  dget G.nodes n

/-- G.add_node(n, bipartite=a): register the node, overwriting the
bipartite attribute when the node already exists. -/
def NXGraph.addNode (G : NXGraph) (n : Node) (a : String) : NXGraph :=
  ⟨dset G.nodes n (some a), G.edges⟩

/-- Node creation as a side effect of add_edge: an absent endpoint is
appended with an empty attribute dictionary; a present one is untouched. -/
def NXGraph.ensureNode (G : NXGraph) (n : Node) : NXGraph :=
  if G.hasNode n then G else ⟨G.nodes ++ [(n, none)], G.edges⟩

/-- Weight lookup for the undirected edge u-v in an edge list. -/
def elookup (es : EdgeList) (u v : Node) : Option ℚ :=
  (es.find? (fun p => ekey p.1 u v)).map (fun p => p.2)

/-- Edge membership for the undirected edge u-v in an edge list. -/
def ehas (es : EdgeList) (u v : Node) : Bool :=
  es.any (fun p => ekey p.1 u v)

def NXGraph.edgeWeight (G : NXGraph) (u v : Node) : Option ℚ :=
  elookup G.edges u v

def NXGraph.hasEdge (G : NXGraph) (u v : Node) : Bool :=
  ehas G.edges u v

/-- G.add_edge(u, v, weight=w): create missing endpoints, then set the
weight attribute of the edge (replacing it when the edge exists). -/
def NXGraph.addEdge (G : NXGraph) (u v : Node) (w : ℚ) : NXGraph :=
  let G1 := (G.ensureNode u).ensureNode v
  ⟨G1.nodes, eset G1.edges u v w⟩

def NXGraph.nodeNames (G : NXGraph) : List Node := G.nodes.map (fun p => p.1)

/-- Effective weight of a record: float(likeCount) when the field is
present, non-NaN and numeric; the 1.0 fallback otherwise. -/
def effWeight (r : Record) : ℚ :=
  match r.likeCount with
  | some (some w) => w
  | _ => 1

/-- The edge upsert of build_bipartite_graph: add w to the existing weight
when the edge exists (G.has_edge followed by += on the weight attribute),
else create the edge with weight w. -/
def upsertEdge (G : NXGraph) (a s : Node) (w : ℚ) : NXGraph :=
  match G.edgeWeight a s with
  | some w0 => ⟨G.nodes, eset G.edges a s (w0 + w)⟩
  | none => G.addEdge a s w

/-- One iteration of the row loop of build_bipartite_graph: skip the record
when author or subreddit is missing, else register both nodes and upsert
the author-subreddit edge with the effective record weight. -/
def processRecord (G : NXGraph) (r : Record) : NXGraph :=
  match r.author, r.subreddit with
  | some a, some s =>
      upsertEdge ((G.addNode a "author").addNode s "subreddit") a s (effWeight r)
  | _, _ => G

/-- build_bipartite_graph: fold the row loop over the record stream. -/
def build_bipartite_graph (rs : List Record) : NXGraph :=
  rs.foldl processRecord NXGraph.empty

/-- The neighbor list of u in edge-insertion order (networkx adjacency);
a self-loop contributes u itself once. -/
def NXGraph.nbrs (G : NXGraph) (u : Node) : List Node :=
  G.edges.filterMap (fun p =>
    if p.1.1 == u then some p.1.2
    else if p.1.2 == u then some p.1.1 else none)

/-- The nodes carrying the bipartite="author" attribute, in node order. -/
def authorsOf (G : NXGraph) : List Node :=
  (G.nodes.filter (fun p => p.2 == some "author")).map (fun p => p.1)

/-- The set of second neighbors of u other than u itself (the Python set
comprehension over B[nbr] for nbr in B[u], minus u). -/
def nbrs2 (G : NXGraph) (u : Node) : List Node :=
  (((G.nbrs u).flatMap (fun x => G.nbrs x)).dedup).filter (fun v => v != u)

/-- The iteration sequence of the projection loop: for u in the selected
nodes, for v among the second neighbors of u, the insertion (u, v). -/
def projPairs (G : NXGraph) (sel : List Node) : List (Node × Node) :=
  sel.flatMap (fun u => (nbrs2 G u).map (fun v => (u, v)))

/-- Models networkx bipartite.weighted_projected_graph B nodes per its
documented semantics: start from the selected nodes together with their
attributes; then for every selected u and every second neighbor v of u
distinct from u (the nested loop, written here as one flattened fold), add
the edge u-v weighted by the number of common neighbors of u and v. -/
def weighted_projected_graph (G : NXGraph) (sel : List Node) : NXGraph :=
  (projPairs G sel).foldl
    (fun P uv => P.addEdge uv.1 uv.2 (((G.nbrs uv.1).inter (G.nbrs uv.2)).length : ℚ))
    ⟨sel.map (fun n => (n, (G.nodeAttr n).getD none)), []⟩

/-- project_authors: project the bipartite graph onto the author nodes. -/
def project_authors (G : NXGraph) : NXGraph :=
  weighted_projected_graph G (authorsOf G)

/-- Unweighted node degree (networkx G.degree: a self-loop counts twice). -/
def NXGraph.degree (G : NXGraph) (u : Node) : ℕ :=
  (G.edges.map (fun p =>
    (if p.1.1 == u then 1 else 0) + (if p.1.2 == u then 1 else 0))).sum

/-- Weighted degree (networkx G.degree(weight="weight")). -/
def NXGraph.wdegree (G : NXGraph) (u : Node) : ℚ :=
  (G.edges.map (fun p =>
    (if p.1.1 == u then p.2 else 0) + (if p.1.2 == u then p.2 else 0))).sum

/-- networkx density: 0 when there are no edges or at most one node, else
2m / (n(n-1)). -/
def NXGraph.density (G : NXGraph) : ℚ :=
  let n := G.nodes.length
  let m := G.edges.length
  if m = 0 ∨ n ≤ 1 then 0
  else (2 * (m : ℚ)) / ((n : ℚ) * ((n : ℚ) - 1))

/-- networkx degree_centrality: every node gets 1 when n ≤ 1, else
degree * (1/(n-1)). -/
def NXGraph.degCent (G : NXGraph) (u : Node) : ℚ :=
  let n := G.nodes.length
  if n ≤ 1 then 1 else (G.degree u : ℚ) * (1 / ((n : ℚ) - 1))

/-- networkx local clustering coefficient of u (unweighted; self-loops are
ignored): with vs the distinct neighbors of u other than u and t the number
of ordered pairs of adjacent members of vs, 0 when t = 0 and otherwise
t / (d(d-1)) with d the size of vs. -/
def NXGraph.clustering (G : NXGraph) (u : Node) : ℚ :=
  let vs := ((G.nbrs u).dedup).filter (fun x => x != u)
  let t := (vs.map (fun w =>
    ((((G.nbrs w).dedup).filter (fun x => x != w)).inter vs).length)).sum
  if t = 0 then 0
  else (t : ℚ) / ((vs.length : ℚ) * ((vs.length : ℚ) - 1))

/-- networkx average_clustering: the mean local clustering coefficient; on
the empty graph the division raises (error case). -/
def NXGraph.avgClustering (G : NXGraph) : Except String ℚ :=
  if G.nodes.length = 0 then .error "ZeroDivisionError"
  else .ok (((G.nodeNames.map (fun u => G.clustering u)).sum) / ((G.nodes.length : ℚ)))

/-- The distinct neighbors of u as a finite set. -/
def NXGraph.nbrsF (G : NXGraph) (u : Node) : Finset Node := (G.nbrs u).toFinset

/-- One breadth-first expansion step: a set of nodes together with all
their neighbors. -/
def expand (G : NXGraph) (S : Finset Node) : Finset Node :=
  S ∪ S.biUnion (fun x => G.nbrsF x)

/-- The set of nodes reachable from u in at most k steps. -/
def ball (G : NXGraph) (u : Node) : ℕ → Finset Node
  | 0 => {u}
  | k + 1 => expand G (ball G u k)

/-- The set of nodes reachable from u (breadth-first search saturates
within as many steps as there are nodes). -/
def NXGraph.reachSet (G : NXGraph) (u : Node) : Finset Node :=
  ball G u G.nodes.length

/-- Breadth-first hop distance: the least number of steps after which v is
reached from u; none when v is unreachable. -/
def NXGraph.distB (G : NXGraph) (u v : Node) : Option ℕ :=
  (List.range (G.nodes.length + 1)).find? (fun k => decide (v ∈ ball G u k))

/-- The connected component of u, listed in node order. -/
def compOf (G : NXGraph) (u : Node) : List Node :=
  G.nodeNames.filter (fun v => decide (v ∈ G.reachSet u))

/-- One step of the connected-components loop: skip a node already seen,
else emit its component and mark it seen. -/
def ccStep (G : NXGraph) (acc : List (List Node) × List Node) (v : Node) :
    List (List Node) × List Node :=
  if acc.2.contains v then acc
  else (acc.1 ++ [compOf G v], acc.2 ++ compOf G v)

/-- networkx connected_components: iterate the nodes in order and emit the
component of every node not yet seen. -/
def connected_components (G : NXGraph) : List (List Node) :=
  (G.nodeNames.foldl (ccStep G) (([], []) : List (List Node) × List Node)).1

/-- One comparison step of Python max(cs, key=len). -/
def pickMaxStep (best : Option (List Node)) (c : List Node) : Option (List Node) :=
  match best with
  | none => some c
  | some b => if b.length < c.length then some c else some b

/-- Python max(cs, key=len): the first list of maximal length. -/
def pickMax (cs : List (List Node)) : Option (List Node) :=
  cs.foldl pickMaxStep none

/-- G.subgraph(S): the induced subgraph on the nodes of S. -/
def NXGraph.inducedSubgraph (G : NXGraph) (S : List Node) : NXGraph :=
  ⟨G.nodes.filter (fun p => S.contains p.1),
   G.edges.filter (fun p => S.contains p.1.1 && S.contains p.1.2)⟩

/-- networkx is_connected: breadth-first search from the first node reaches
every node; raises on the empty graph. -/
def NXGraph.isConnected (G : NXGraph) : Except String Bool :=
  match G.nodeNames with
  | [] => .error "NetworkXPointlessConcept"
  | v :: _ => .ok (G.nodeNames.all (fun x => decide (x ∈ G.reachSet v)))

/-- The sum of the breadth-first hop distances over all ordered node pairs,
divided by n(n-1). -/
def aspVal (G : NXGraph) : ℚ :=
  ((G.nodeNames.flatMap (fun u =>
    G.nodeNames.map (fun v => ((G.distB u v).getD 0 : ℚ)))).sum)
    / ((G.nodes.length : ℚ) * ((G.nodes.length : ℚ) - 1))

/-- networkx average_shortest_path_length (unweighted): raises on the empty
graph and on a disconnected graph, is 0 for a single node, and otherwise
averages the breadth-first hop distances over all ordered node pairs. -/
def NXGraph.avgShortestPathLength (G : NXGraph) : Except String ℚ := do
  let n := G.nodes.length
  if n = 0 then throw "NetworkXPointlessConcept"
  else if n = 1 then pure 0
  else
    let conn ← G.isConnected
    if conn then pure (aspVal G)
    else throw "NetworkXError: Graph is not connected"

/-- The metrics record assembled by compute_metrics.  An Option field holds
none where the Python dictionary holds None.  The field
max_degree_centrality is doubly optional: the outer none means the key is
absent from the dictionary (the empty-graph early return), and an inner
none would mean the key is present with value None. -/
structure Metrics where
  n_nodes : ℕ
  n_edges : ℕ
  avg_degree : ℚ
  density : ℚ
  avg_clustering : Option ℚ
  n_components : Option ℕ
  largest_component : Option ℕ
  avg_shortest_path : Option ℚ
  max_degree_centrality : Option (Option ℚ)
deriving DecidableEq, Repr

/-- The size of the largest connected component (0 on the empty graph):
Python max over the component sizes, with 0 for no components. -/
def largestCompSize (G : NXGraph) : ℕ :=
  ((connected_components G).map (fun c => c.length)).foldl max 0

/-- The try-block of compute_metrics covering the connected components,
the largest component size and the average shortest path length; an error
models a raised exception, caught by the caller. -/
def compBlock (G : NXGraph) : Except String (ℕ × ℕ × Option ℚ) := do
  let comps := connected_components G
  let ncomp := comps.length
  let largest := largestCompSize G
  if 1 < largest then
    match pickMax comps with
    | some lc =>
        let a ← (G.inducedSubgraph lc).avgShortestPathLength
        pure (ncomp, largest, some a)
    | none => throw "ValueError: max of empty sequence"
  else pure (ncomp, largest, none)

/-- compute_metrics: the empty graph takes the zeroed early return (note
that the max_degree_centrality key is then absent); otherwise the mean
degree, density, mean clustering (exception caught to None), the component
block (exception caught to three None fields) and the maximal degree
centrality are assembled. -/
def compute_metrics (G : NXGraph) : Except String Metrics := do
  let n := G.nodes.length
  let m := G.edges.length
  if n = 0 then
    pure ⟨0, m, 0, 0, none, some 0, some 0, none, none⟩
  else
    let degs := G.nodeNames.map (fun u => G.degree u)
    let avgdeg := ((degs.map (fun d => (d : ℚ))).sum) / (n : ℚ)
    let clu : Option ℚ := match G.avgClustering with
      | .ok c => some c
      | .error _ => none
    let (ncomp, largest, asp) :
        Option ℕ × Option ℕ × Option ℚ := match compBlock G with
      | .ok (c, l, a) => (some c, some l, a)
      | .error _ => (none, none, none)
    let dcvals := G.nodeNames.map (fun u => G.degCent u)
    let mdc : ℚ := match dcvals.max? with
      | some x => x
      | none => 0
    pure ⟨n, m, avgdeg, G.density, clu, ncomp, largest, asp, some (some mdc)⟩

structure InfluencerEntry where
  author : Node
  degree_centrality : ℚ
  weighted_degree : ℚ
deriving DecidableEq, Repr

/-- Python list slicing l[:k], including the negative-index convention. -/
def pySlice {α : Type} (l : List α) (k : ℤ) : List α :=
  if k < 0 then l.take (l.length - (-k).toNat) else l.take k.toNat

/-- top_influencers_by_centrality: empty graph gives the empty list;
otherwise the nodes are sorted by descending degree centrality (a stable
sort, as Python sorted is stable), cut to the first topk, and mapped to entries carrying
the degree centrality and the weighted degree. -/
def top_influencers_by_centrality (P : NXGraph) (topk : ℤ) :
    Except String (List InfluencerEntry) := do
  if P.nodes.length = 0 then pure []
  else
    let srt := P.nodeNames.insertionSort (fun a b => P.degCent b ≤ P.degCent a)
    pure ((pySlice srt topk).map (fun u => ⟨u, P.degCent u, P.wdegree u⟩))

/-- The category of a record after fillna("unknown"). -/
def catOf (r : Record) : String := r.category.getD "unknown"

/-- sorted(df["content_type"].fillna("unknown").unique()): the distinct
defaulted categories in first-occurrence order, sorted lexicographically. -/
def catKeys (rs : List Record) : List String :=
  ((rs.map catOf).dedup).insertionSort (fun a b => a ≤ b)

/-- The two tables assembled by analyze_per_content: the summary dictionary
in insertion order and the influencer rows tagged with their category. -/
structure AnalysisOut where
  summary : List (String × Metrics)
  influencers : List (String × InfluencerEntry)
deriving DecidableEq, Repr

/-- The metrics record computed for a graph (compute_metrics never raises,
so the error fallback is unreachable). -/
def metricsOf (G : NXGraph) : Metrics :=
  match compute_metrics G with
  | .ok m => m
  | .error _ => ⟨0, 0, 0, 0, none, none, none, none, none⟩

/-- The influencer list computed for a graph (the ranking never raises, so
the error fallback is unreachable). -/
def influencersOf (P : NXGraph) : List InfluencerEntry :=
  match top_influencers_by_centrality P 10 with
  | .ok l => l
  | .error _ => []

/-- One iteration of the per-category loop of analyze_per_content. -/
def catStepE (rs : List Record)
    (acc : List (String × Metrics) × List (String × InfluencerEntry)) (c : String) :
    Except String (List (String × Metrics) × List (String × InfluencerEntry)) := do
  let Pc := project_authors (build_bipartite_graph
    (rs.filter (fun r => r.category == some c)))
  let mc ← compute_metrics Pc
  let infc ← top_influencers_by_centrality Pc 10
  pure (dset acc.1 c mc, acc.2 ++ infc.map (fun i => (c, i)))

/-- The pure value of one per-category iteration. -/
def catStep (rs : List Record)
    (acc : List (String × Metrics) × List (String × InfluencerEntry)) (c : String) :
    List (String × Metrics) × List (String × InfluencerEntry) :=
  let Pc := project_authors (build_bipartite_graph
    (rs.filter (fun r => r.category == some c)))
  (dset acc.1 c (metricsOf Pc), acc.2 ++ (influencersOf Pc).map (fun i => (c, i)))

/-- analyze_per_content: run the pipeline on the full stream under the key
"all", then for each sorted distinct category rerun it on the subset of
records whose content_type equals that category (a NaN category matches no
category, since NaN compares unequal to every string). -/
def analyze_per_content (rs : List Record) : Except String AnalysisOut := do
  let P := project_authors (build_bipartite_graph rs)
  let mAll ← compute_metrics P
  let infAll ← top_influencers_by_centrality P 10
  let res ← (catKeys rs).foldlM (catStepE rs)
    (dset [] "all" mAll, infAll.map (fun i => ("all", i)))
  pure ⟨res.1, res.2⟩

/-- Pairwise distinctness of the unordered edge keys of an edge list. -/
def edgeKeysOK : EdgeList → Bool
  | [] => true
  | p :: rest => rest.all (fun q => !(ekey q.1 p.1.1 p.1.2)) && edgeKeysOK rest

/-- A well-formed networkx graph: node keys are distinct, edge keys are
distinct as unordered pairs, and edge endpoints are registered nodes. -/
def NXGraph.WF (G : NXGraph) : Prop :=
  G.nodeNames.Nodup ∧ edgeKeysOK G.edges = true ∧
  ∀ p ∈ G.edges, G.hasNode p.1.1 = true ∧ G.hasNode p.1.2 = true

instance (G : NXGraph) : Decidable G.WF := by
  unfold NXGraph.WF
  infer_instance

/-- The three scenario records of the spec: (a1,s1,10), (a2,s1,5), (a1,s2,1). -/
def scenarioRecords : List Record :=
  [⟨some "a1", some "s1", some (some 10), none⟩,
   ⟨some "a2", some "s1", some (some 5), none⟩,
   ⟨some "a1", some "s2", some (some 1), none⟩]

def scenarioG : NXGraph := build_bipartite_graph scenarioRecords

def scenarioP : NXGraph := project_authors scenarioG

/-- A record is valid when both author and subreddit are present. -/
def validR (r : Record) : Bool := r.author.isSome && r.subreddit.isSome

/-- The valid record r mentions node x as its author or its subreddit. -/
def touches (r : Record) (x : Node) : Bool :=
  validR r && (r.author == some x || r.subreddit == some x)

/-- The record r contributes to the undirected edge u-v. -/
def pmatch (r : Record) (u v : Node) : Bool :=
  (r.author == some u && r.subreddit == some v) ||
  (r.author == some v && r.subreddit == some u)

/-- The author names occurring in valid records. -/
def authorNamesR (rs : List Record) : List Node :=
  rs.filterMap (fun r => if validR r then r.author else none)

/-- The subreddit names occurring in valid records. -/
def subredditNamesR (rs : List Record) : List Node :=
  rs.filterMap (fun r => if validR r then r.subreddit else none)

/-- No identifier of the record stream is used both as an author and as a
subreddit. -/
def NoCollision (rs : List Record) : Prop :=
  ∀ x, x ∈ authorNamesR rs → x ∉ subredditNamesR rs

instance (rs : List Record) : Decidable (NoCollision rs) := by
  unfold NoCollision
  infer_instance

/-- The nodes carrying the bipartite="subreddit" attribute, in node order. -/
def subredditsOf (G : NXGraph) : List Node :=
  (G.nodes.filter (fun p => p.2 == some "subreddit")).map (fun p => p.1)

/-- The bipartite structural invariant of the built graph, relative to the
record stream: every node attribute is author or subreddit and comes from a
record naming it in that role, and every stored edge is oriented from an
author-attributed node to a subreddit-attributed node. -/
def BipInv (rs : List Record) (G : NXGraph) : Prop :=
  (∀ x a, G.nodeAttr x = some a →
    (a = some "author" ∧ x ∈ authorNamesR rs) ∨
    (a = some "subreddit" ∧ x ∈ subredditNamesR rs)) ∧
  (∀ p ∈ G.edges, G.nodeAttr p.1.1 = some (some "author") ∧
    G.nodeAttr p.1.2 = some (some "subreddit"))

/-- Two records with distinct authors posting in one subreddit. -/
def pairRecords : List Record :=
  [⟨some "a1", some "s1", none, none⟩, ⟨some "a2", some "s1", none, none⟩]

/-- The author projection of the graph built from pairRecords: the two
authors joined by one edge of weight 1. -/
def pairP : NXGraph := project_authors (build_bipartite_graph pairRecords)

/-- The number of distinct shared neighbors of u and v: in a bipartite
graph with u and v authors, the number of distinct communities both are
connected to. -/
def sharedCount (G : NXGraph) (u v : Node) : ℕ :=
  ((G.nbrs u).toFinset ∩ (G.nbrs v).toFinset).card

deriving instance DecidableEq for Except

unseal Rat.add Rat.mul Rat.inv Rat.sub

/-! ## Theorems -/

/-- C10: on the records (a1,s1,10), (a2,s1,5), (a1,s2,1) the pipeline
produces the bipartite edges a1-s1 of weight 10, a2-s1 of weight 5 and
a1-s2 of weight 1 and no others; the projection has node set a1, a2 and
the single edge a1-a2 of weight 1; and the projection metrics are
n_nodes 2, n_edges 1, density 1, avg_degree 1, n_components 1,
largest_component 2 and avg_shortest_path 1. -/
theorem C10_scenario :
    scenarioG.edgeWeight "a1" "s1" = some 10 ∧
    scenarioG.edgeWeight "a2" "s1" = some 5 ∧
    scenarioG.edgeWeight "a1" "s2" = some 1 ∧
    scenarioG.edges.length = 3 ∧
    scenarioP.nodeNames = ["a1", "a2"] ∧
    scenarioP.edgeWeight "a1" "a2" = some 1 ∧
    scenarioP.edges.length = 1 ∧
    (compute_metrics scenarioP).map (fun m => m.n_nodes) = .ok 2 ∧
    (compute_metrics scenarioP).map (fun m => m.n_edges) = .ok 1 ∧
    (compute_metrics scenarioP).map (fun m => m.density) = .ok 1 ∧
    (compute_metrics scenarioP).map (fun m => m.avg_degree) = .ok 1 ∧
    (compute_metrics scenarioP).map (fun m => m.n_components) = .ok (some 1) ∧
    (compute_metrics scenarioP).map (fun m => m.largest_component) = .ok (some 2) ∧
    (compute_metrics scenarioP).map (fun m => m.avg_shortest_path) = .ok (some 1) := by
  decide

/-! ### Basic dictionary and edge-list lemmas -/

/-- Unordered pair equality of (a, b) and (u, v). -/
def sameU (u v a b : Node) : Prop := (a = u ∧ b = v) ∨ (a = v ∧ b = u)

instance (u v a b : Node) : Decidable (sameU u v a b) := by
  unfold sameU
  infer_instance

theorem ekey_eq_true (p : Node × Node) (u v : Node) :
    ekey p u v = true ↔ (p.1 = u ∧ p.2 = v) ∨ (p.1 = v ∧ p.2 = u) := by
  simp [ekey]

theorem ekey_self (u v : Node) : ekey (u, v) u v = true := by
  simp [ekey]

theorem ekey_both {p : Node × Node} {u v a b : Node} (h1 : ekey p u v = true)
    (h2 : ekey p a b = true) : sameU u v a b := by
  rw [ekey_eq_true] at h1 h2
  unfold sameU
  rcases h1 with ⟨h1a, h1b⟩ | ⟨h1a, h1b⟩ <;> rcases h2 with ⟨h2a, h2b⟩ | ⟨h2a, h2b⟩ <;>
    subst h1a <;> subst h1b <;> simp_all
  
theorem ekey_of_sameU {u v a b : Node} (h : sameU u v a b) (p : Node × Node) :
    ekey p u v = ekey p a b := by
  rcases h with ⟨ha, hb⟩ | ⟨ha, hb⟩ <;> subst ha <;> subst hb
  · rfl
  · simp only [ekey]
    exact Bool.or_comm _ _

theorem elookup_congr {u v a b : Node} (h : sameU u v a b) (es : EdgeList) :
    elookup es u v = elookup es a b := by
  unfold elookup
  have hf : (fun p : (Node × Node) × ℚ => ekey p.1 u v)
      = fun p : (Node × Node) × ℚ => ekey p.1 a b :=
    funext fun p => ekey_of_sameU h p.1
  rw [hf]

theorem elookup_eset_self (es : EdgeList) (u v : Node) (w : ℚ) :
    elookup (eset es u v w) u v = some w := by
  induction es with
  | nil => simp [eset, elookup, List.find?, ekey_self]
  | cons p es ih =>
      by_cases h : ekey p.1 u v = true
      · simp [eset, h, elookup, List.find?]
      · simp only [eset, h, Bool.false_eq_true, if_false]
        simp only [elookup, List.find?, h] at ih ⊢
        exact ih

theorem elookup_eset_other {u v a b : Node} (h : ¬ sameU u v a b)
    (es : EdgeList) (w : ℚ) :
    elookup (eset es u v w) a b = elookup es a b := by
  induction es with
  | nil =>
      have hk : ekey (u, v) a b = false := by
        by_contra hc
        simp only [Bool.not_eq_false] at hc
        exact h (ekey_both (ekey_self u v) hc)
      simp [eset, elookup, List.find?, hk]
  | cons p es ih =>
      by_cases hp : ekey p.1 u v = true
      · have hk : ekey p.1 a b = false := by
          by_contra hc
          simp only [Bool.not_eq_false] at hc
          exact h (ekey_both hp hc)
        simp [eset, hp, elookup, List.find?, hk]
      · simp only [eset, hp, Bool.false_eq_true, if_false]
        simp only [elookup, List.find?] at ih ⊢
        cases hq : ekey p.1 a b
        · exact ih
        · rfl

theorem elookup_isSome (es : EdgeList) (u v : Node) :
    (elookup es u v).isSome = ehas es u v := by
  unfold elookup ehas
  rw [Option.isSome_map']
  rw [Bool.eq_iff_iff, List.find?_isSome, List.any_eq_true]

theorem dget_dset_self {α : Type} (l : List (String × α)) (k : String) (v : α) :
    dget (dset l k v) k = some v := by
  induction l with
  | nil => simp [dset, dget, List.find?]
  | cons p l ih =>
      by_cases h : p.1 = k
      · simp [dset, h, dget, List.find?]
      · have hb : (p.1 == k) = false := by simp [h]
        simp only [dset, hb, Bool.false_eq_true, if_false]
        simp only [dget, List.find?, hb] at ih ⊢
        exact ih

theorem dget_dset_other {α : Type} {x k : String} (h : x ≠ k)
    (l : List (String × α)) (v : α) :
    dget (dset l k v) x = dget l x := by
  induction l with
  | nil =>
      have hb : (k == x) = false := by simp [Ne.symm h]
      simp [dset, dget, List.find?, hb]
  | cons p l ih =>
      by_cases hp : p.1 = k
      · have hb : (k == x) = false := by simp [Ne.symm h]
        have hpx : (p.1 == x) = false := by simp [hp, Ne.symm h]
        simp [dset, hp, dget, List.find?, hb, hpx]
      · have hbp : (p.1 == k) = false := by simp [hp]
        simp only [dset, hbp, Bool.false_eq_true, if_false]
        simp only [dget, List.find?] at ih ⊢
        cases hq : p.1 == x
        · exact ih
        · rfl

theorem any_dset {α : Type} (l : List (String × α)) (k x : String) (v : α) :
    (dset l k v).any (fun p => p.1 == x) = (l.any (fun p => p.1 == x) || x == k) := by
  induction l with
  | nil =>
      by_cases h : x = k <;> simp [dset, h]
      intro hc
      exact h hc.symm
  | cons p l ih =>
      by_cases hp : p.1 = k
      · subst hp
        by_cases hx : x = p.1 <;> simp [dset, hx]
      · have hb : (p.1 == k) = false := by simp [hp]
        simp only [dset, hb, Bool.false_eq_true, if_false, List.any_cons, ih]
        cases p.1 == x <;> simp

theorem hasNode_addNode (G : NXGraph) (n a : String) (x : Node) :
    (G.addNode n a).hasNode x = (G.hasNode x || x == n) := by
  unfold NXGraph.hasNode NXGraph.addNode
  exact any_dset G.nodes n x (some a)

theorem dset_dset {α : Type} (l : List (String × α)) (k : String) (v v' : α) :
    dset (dset l k v') k v = dset l k v := by
  induction l with
  | nil => simp [dset]
  | cons p l ih =>
      by_cases hp : p.1 = k
      · simp [dset, hp]
      · have hb : (p.1 == k) = false := by simp [hp]
        simp [dset, hb, ih]

theorem addNode_idem (G : NXGraph) (n : Node) (a : String) :
    (G.addNode n a).addNode n a = G.addNode n a := by
  unfold NXGraph.addNode
  rw [dset_dset]

theorem ensureNode_of_hasNode {G : NXGraph} {n : Node} (h : G.hasNode n = true) :
    G.ensureNode n = G := by
  unfold NXGraph.ensureNode
  rw [h]
  simp

theorem edges_addNode (G : NXGraph) (n : Node) (a : String) :
    (G.addNode n a).edges = G.edges := rfl

theorem hasNode_of_edges_eq {G H : NXGraph} (h : G.nodes = H.nodes) (x : Node) :
    G.hasNode x = H.hasNode x := by
  unfold NXGraph.hasNode
  rw [h]

/-- Under registered endpoints, the edge upsert leaves the node dictionary
unchanged and rewrites the edge dictionary with eset at the combined
weight. -/
theorem upsertEdge_eq {G : NXGraph} {a s : Node} (ha : G.hasNode a = true)
    (hs : G.hasNode s = true) (w : ℚ) :
    upsertEdge G a s w =
      ⟨G.nodes, eset G.edges a s
        (match G.edgeWeight a s with
         | some w0 => w0 + w
         | none => w)⟩ := by
  unfold upsertEdge
  cases hw : G.edgeWeight a s with
  | some w0 => rfl
  | none =>
      unfold NXGraph.addEdge
      rw [ensureNode_of_hasNode ha]
      rw [ensureNode_of_hasNode hs]

/-- The valid-record case of processRecord, in closed form. -/
theorem processRecord_valid {r : Record} {a s : Node} (ha : r.author = some a)
    (hs : r.subreddit = some s) (G : NXGraph) :
    processRecord G r =
      ⟨((G.addNode a "author").addNode s "subreddit").nodes,
       eset G.edges a s
        (match G.edgeWeight a s with
         | some w0 => w0 + effWeight r
         | none => effWeight r)⟩ := by
  have h1 : ((G.addNode a "author").addNode s "subreddit").hasNode a = true := by
    rw [hasNode_addNode, hasNode_addNode]
    by_cases hx : a = s <;> simp [hx]
  have h2 : ((G.addNode a "author").addNode s "subreddit").hasNode s = true := by
    rw [hasNode_addNode]
    simp
  simp only [processRecord, ha, hs]
  rw [upsertEdge_eq h1 h2 (effWeight r)]
  rfl

/-- The invalid-record case of processRecord: the graph is unchanged. -/
theorem processRecord_invalid {r : Record} (h : r.author = none ∨ r.subreddit = none)
    (G : NXGraph) : processRecord G r = G := by
  unfold processRecord
  rcases h with h | h
  · rw [h]
  · cases ha : r.author <;> rw [h]

/-- C8: a record with missing author or subreddit is skipped and leaves the
graph unchanged; otherwise the author and subreddit nodes are registered
(idempotently: re-registering a node is a no-op, and exactly the two names
are added to the node set), and the author-subreddit edge is upserted:
created with the effective record weight when absent, incremented by it
when present, with no other edge weight changed; a missing or non-numeric
likeCount falls back to the weight 1. -/
theorem C8_record_step (G : NXGraph) (r : Record) :
    (r.author = none ∨ r.subreddit = none → processRecord G r = G) ∧
    (∀ a s, r.author = some a → r.subreddit = some s →
      (∀ x, (processRecord G r).hasNode x = (G.hasNode x || x == a || x == s)) ∧
      (processRecord G r).edgeWeight a s =
        some (match G.edgeWeight a s with
              | some w0 => w0 + effWeight r
              | none => effWeight r) ∧
      (∀ x y, ¬ sameU a s x y →
        (processRecord G r).edgeWeight x y = G.edgeWeight x y)) ∧
    (∀ n t, (G.addNode n t).addNode n t = G.addNode n t) ∧
    (r.likeCount = none → effWeight r = 1) ∧
    (r.likeCount = some none → effWeight r = 1) := by
  refine ⟨fun h => processRecord_invalid h G, ?_,
    fun n t => addNode_idem G n t, ?_, ?_⟩
  · intro a s ha hs
    rw [processRecord_valid ha hs G]
    refine ⟨?_, ?_, ?_⟩
    · intro x
      show ((G.addNode a "author").addNode s "subreddit").hasNode x
          = (G.hasNode x || x == a || x == s)
      rw [hasNode_addNode, hasNode_addNode, Bool.or_assoc]
    · show elookup (eset G.edges a s _) a s = _
      rw [elookup_eset_self]
    · intro x y hxy
      show elookup (eset G.edges a s _) x y = G.edgeWeight x y
      rw [elookup_eset_other hxy]
      rfl
  · intro h
    unfold effWeight
    rw [h]
  · intro h
    unfold effWeight
    rw [h]

/-- Witness for C8: at the record (a, s) with NaN likeCount and the empty
graph, the valid-record clause applies and the fallback weight is 1. -/
theorem C8_record_step_witness :
    (processRecord NXGraph.empty ⟨some "a", some "s", none, none⟩).edgeWeight "a" "s"
      = some (match NXGraph.empty.edgeWeight "a" "s" with
              | some w0 => w0 + effWeight ⟨some "a", some "s", none, none⟩
              | none => effWeight ⟨some "a", some "s", none, none⟩) ∧
    effWeight ⟨some "a", some "s", none, none⟩ = 1 :=
  ⟨((C8_record_step NXGraph.empty ⟨some "a", some "s", none, none⟩).2.1 "a" "s"
    rfl rfl).2.1,
   (C8_record_step NXGraph.empty ⟨some "a", some "s", none, none⟩).2.2.2.1 rfl⟩

theorem beq_comm_str (a b : String) : (a == b) = (b == a) := by
  by_cases h : a = b
  · simp [h]
  · simp [h, Ne.symm h]

theorem hasEdge_eq_isSome (G : NXGraph) (u v : Node) :
    G.hasEdge u v = (G.edgeWeight u v).isSome := by
  unfold NXGraph.hasEdge NXGraph.edgeWeight
  rw [elookup_isSome]

/-- Closed form of the node set of the build fold: a node is present iff it
was present initially or some valid record mentions it. -/
theorem hasNode_foldl (rs : List Record) (G : NXGraph) (x : Node) :
    (rs.foldl processRecord G).hasNode x = (G.hasNode x || rs.any (fun r => touches r x)) := by
  induction rs generalizing G with
  | nil => simp
  | cons r rs ih =>
      rw [List.foldl_cons, ih]
      rcases hv : r.author with _ | a
      · rw [processRecord_invalid (Or.inl hv) G]
        have ht : touches r x = false := by
          unfold touches validR
          rw [hv]
          rfl
        rw [List.any_cons, ht]
        simp
      · rcases hsub : r.subreddit with _ | s
        · rw [processRecord_invalid (Or.inr hsub) G]
          have ht : touches r x = false := by
            unfold touches validR
            rw [hsub]
            simp
          rw [List.any_cons, ht]
          simp
        · have hpn : (processRecord G r).hasNode x = (G.hasNode x || x == a || x == s) := by
            rw [processRecord_valid hv hsub G]
            show ((G.addNode a "author").addNode s "subreddit").hasNode x = _
            rw [hasNode_addNode, hasNode_addNode, Bool.or_assoc]
          rw [hpn]
          have ht : touches r x = (x == a || x == s) := by
            unfold touches validR
            rw [hv, hsub, Bool.eq_iff_iff]
            simp only [Bool.and_eq_true, Bool.or_eq_true, beq_iff_eq, Option.isSome_some,
              Option.some.injEq]
            constructor
            · rintro ⟨_, h | h⟩
              · exact Or.inl h.symm
              · exact Or.inr h.symm
            · rintro (h | h)
              · exact ⟨⟨trivial, trivial⟩, Or.inl h.symm⟩
              · exact ⟨⟨trivial, trivial⟩, Or.inr h.symm⟩
          rw [List.any_cons, ht]
          cases G.hasNode x <;> cases (x == a : Bool) <;> cases (x == s : Bool) <;>
            cases rs.any (fun r => touches r x) <;> rfl

/-- Closed form of the edge weights of the build fold: the weight at u-v is
the initial weight (if any) plus the sum of the effective weights of the
records contributing to u-v, and the edge exists iff it existed initially
or some record contributes to it. -/
theorem edgeWeight_foldl (rs : List Record) (G : NXGraph) (u v : Node) :
    (rs.foldl processRecord G).edgeWeight u v =
      (if G.hasEdge u v || rs.any (fun r => pmatch r u v) then
        some ((G.edgeWeight u v).getD 0 +
          ((rs.filter (fun r => pmatch r u v)).map effWeight).sum)
      else none) := by
  induction rs generalizing G with
  | nil =>
      rw [hasEdge_eq_isSome]
      cases hw : G.edgeWeight u v
      · simp [hw]
      · simp [hw]
  | cons r rs ih =>
      rw [List.foldl_cons, ih]
      by_cases hp : pmatch r u v = true
      · have hva : ∃ a s, r.author = some a ∧ r.subreddit = some s ∧ sameU a s u v := by
          unfold pmatch at hp
          simp only [Bool.or_eq_true, Bool.and_eq_true, beq_iff_eq] at hp
          rcases hp with ⟨h1, h2⟩ | ⟨h1, h2⟩
          · exact ⟨u, v, h1, h2, Or.inl ⟨rfl, rfl⟩⟩
          · exact ⟨v, u, h1, h2, Or.inr ⟨rfl, rfl⟩⟩
        obtain ⟨a, s, ha, hs, hsame⟩ := hva
        have hw' : (processRecord G r).edgeWeight u v =
            some (match G.edgeWeight u v with
                  | some w0 => w0 + effWeight r
                  | none => effWeight r) := by
          rw [processRecord_valid ha hs G]
          show elookup (eset G.edges a s _) u v = _
          rw [← elookup_congr (u := a) (v := s) hsame (eset G.edges a s _)]
          rw [elookup_eset_self]
          have : elookup G.edges a s = G.edgeWeight u v := by
            rw [show G.edgeWeight u v = elookup G.edges u v from rfl]
            exact elookup_congr hsame G.edges
          rw [show G.edgeWeight a s = elookup G.edges a s from rfl, this]
        have hhe : (processRecord G r).hasEdge u v = true := by
          rw [hasEdge_eq_isSome, hw']
          rfl
        rw [hhe, hw']
        simp only [Bool.true_or, if_true, List.any_cons, hp, List.filter_cons_of_pos,
          List.map_cons, List.sum_cons]
        rw [if_pos (by cases G.hasEdge u v <;> simp)]
        cases hw : G.edgeWeight u v
        · simp only [Option.getD_some, Option.getD_none, Option.some.injEq]
          rw [zero_add]
        · simp only [Option.getD_some, Option.some.injEq]
          rw [add_assoc]
      · have hp' : pmatch r u v = false := by
          cases hpp : pmatch r u v
          · rfl
          · exact absurd hpp hp
        have hG' : (processRecord G r).edgeWeight u v = G.edgeWeight u v := by
          rcases hv : r.author with _ | a
          · rw [processRecord_invalid (Or.inl hv) G]
          · rcases hsub : r.subreddit with _ | s
            · rw [processRecord_invalid (Or.inr hsub) G]
            · have hns : ¬ sameU a s u v := by
                intro hsame
                unfold pmatch at hp'
                rcases hsame with ⟨h1, h2⟩ | ⟨h1, h2⟩ <;> subst h1 <;> subst h2 <;>
                  simp [hv, hsub] at hp'
              rw [processRecord_valid hv hsub G]
              show elookup (eset G.edges a s _) u v = _
              rw [elookup_eset_other hns]
              rfl
        have hhe : (processRecord G r).hasEdge u v = G.hasEdge u v := by
          rw [hasEdge_eq_isSome, hasEdge_eq_isSome, hG']
        rw [hhe, hG', List.any_cons, hp', List.filter_cons_of_neg (by simp [hp'])]
        simp

/-- C2: building from any permutation of the record stream yields a graph
with the same nodes, the same edges and the same edge weights. -/
theorem C2_perm_invariance (rs1 rs2 : List Record) (h : rs1.Perm rs2) :
    (∀ x, (build_bipartite_graph rs1).hasNode x = (build_bipartite_graph rs2).hasNode x) ∧
    (∀ u v, (build_bipartite_graph rs1).hasEdge u v = (build_bipartite_graph rs2).hasEdge u v) ∧
    (∀ u v, (build_bipartite_graph rs1).edgeWeight u v
      = (build_bipartite_graph rs2).edgeWeight u v) := by
  have hany : ∀ p : Record → Bool, rs1.any p = rs2.any p := by
    intro p
    rw [Bool.eq_iff_iff, List.any_eq_true, List.any_eq_true]
    constructor <;> rintro ⟨r, hr, hp⟩
    · exact ⟨r, h.mem_iff.mp hr, hp⟩
    · exact ⟨r, h.mem_iff.mpr hr, hp⟩
  have hsum : ∀ p : Record → Bool,
      ((rs1.filter p).map effWeight).sum = ((rs2.filter p).map effWeight).sum := by
    intro p
    exact ((h.filter p).map effWeight).sum_eq
  have hw : ∀ u v, (build_bipartite_graph rs1).edgeWeight u v
      = (build_bipartite_graph rs2).edgeWeight u v := by
    intro u v
    unfold build_bipartite_graph
    rw [edgeWeight_foldl, edgeWeight_foldl, hany, hsum]
  refine ⟨?_, ?_, hw⟩
  · intro x
    unfold build_bipartite_graph
    rw [hasNode_foldl, hasNode_foldl, hany]
  · intro u v
    rw [hasEdge_eq_isSome, hasEdge_eq_isSome, hw]

/-- Witness for C2 at a concrete two-record stream and its swap. -/
theorem C2_perm_invariance_witness :
    ([(⟨some "a", some "s", some (some 2), none⟩ : Record),
      ⟨some "b", some "s", none, none⟩].Perm
     [⟨some "b", some "s", none, none⟩,
      ⟨some "a", some "s", some (some 2), none⟩]) ∧
    (∀ u v, (build_bipartite_graph [(⟨some "a", some "s", some (some 2), none⟩ : Record),
        ⟨some "b", some "s", none, none⟩]).edgeWeight u v
      = (build_bipartite_graph [⟨some "b", some "s", none, none⟩,
        ⟨some "a", some "s", some (some 2), none⟩]).edgeWeight u v) :=
  ⟨by decide, (C2_perm_invariance _ _ (by decide)).2.2⟩

theorem nodeAttr_addNode_self (G : NXGraph) (n : Node) (a : String) :
    (G.addNode n a).nodeAttr n = some (some a) :=
  dget_dset_self G.nodes n (some a)

theorem nodeAttr_addNode_other {x n : Node} (h : x ≠ n) (G : NXGraph) (a : String) :
    (G.addNode n a).nodeAttr x = G.nodeAttr x :=
  dget_dset_other h G.nodes (some a)

theorem ekey_flip (u v a b : Node) : ekey (u, v) a b = ekey (a, b) u v := by
  rw [Bool.eq_iff_iff, ekey_eq_true, ekey_eq_true]
  constructor <;> rintro (⟨h1, h2⟩ | ⟨h1, h2⟩)
  · exact Or.inl ⟨h1.symm, h2.symm⟩
  · exact Or.inr ⟨h2.symm, h1.symm⟩
  · exact Or.inl ⟨h1.symm, h2.symm⟩
  · exact Or.inr ⟨h2.symm, h1.symm⟩

theorem mem_eset_keys {es : EdgeList} {p : (Node × Node) × ℚ} {u v : Node} {w : ℚ}
    (h : p ∈ eset es u v w) : (∃ q ∈ es, p.1 = q.1) ∨ p.1 = (u, v) := by
  induction es with
  | nil =>
      simp only [eset, List.mem_singleton] at h
      exact Or.inr (by rw [h])
  | cons q es ih =>
      by_cases hq : ekey q.1 u v = true
      · simp only [eset, hq, if_true, List.mem_cons] at h
        rcases h with h | h
        · exact Or.inl ⟨q, List.mem_cons_self q es, by rw [h]⟩
        · exact Or.inl ⟨p, List.mem_cons_of_mem q h, rfl⟩
      · simp only [eset, hq, Bool.false_eq_true, if_false, List.mem_cons] at h
        rcases h with h | h
        · exact Or.inl ⟨q, List.mem_cons_self q es, by rw [h]⟩
        · rcases ih h with ⟨q', hq', he⟩ | he
          · exact Or.inl ⟨q', List.mem_cons_of_mem q hq', he⟩
          · exact Or.inr he

/-- One record preserves the bipartite invariant, given no collision. -/
theorem bipInv_step {rs : List Record} (hnc : NoCollision rs) {r : Record}
    (hr : r ∈ rs) {G : NXGraph} (hG : BipInv rs G) : BipInv rs (processRecord G r) := by
  rcases hv : r.author with _ | a
  · rw [processRecord_invalid (Or.inl hv) G]
    exact hG
  rcases hsub : r.subreddit with _ | s
  · rw [processRecord_invalid (Or.inr hsub) G]
    exact hG
  have hva : validR r = true := by
    unfold validR
    rw [hv, hsub]
    rfl
  have hmemA : a ∈ authorNamesR rs := by
    unfold authorNamesR
    rw [List.mem_filterMap]
    exact ⟨r, hr, by simp [hva, hv]⟩
  have hmemS : s ∈ subredditNamesR rs := by
    unfold subredditNamesR
    rw [List.mem_filterMap]
    exact ⟨r, hr, by simp [hva, hsub]⟩
  have has : a ≠ s := by
    intro hc
    exact hnc a hmemA (hc ▸ hmemS)
  rw [processRecord_valid hv hsub G]
  have hattr : ∀ x, (NXGraph.mk ((G.addNode a "author").addNode s "subreddit").nodes
      (eset G.edges a s (match G.edgeWeight a s with
        | some w0 => w0 + effWeight r
        | none => effWeight r))).nodeAttr x
      = ((G.addNode a "author").addNode s "subreddit").nodeAttr x := fun _ => rfl
  constructor
  · intro x att hx
    rw [hattr] at hx
    by_cases hxs : x = s
    · subst hxs
      rw [nodeAttr_addNode_self] at hx
      exact Or.inr ⟨(Option.some.inj hx).symm, hmemS⟩
    · rw [nodeAttr_addNode_other hxs] at hx
      by_cases hxa : x = a
      · subst hxa
        rw [nodeAttr_addNode_self] at hx
        exact Or.inl ⟨(Option.some.inj hx).symm, hmemA⟩
      · rw [nodeAttr_addNode_other hxa] at hx
        exact hG.1 x att hx
  · intro p hp
    rw [hattr, hattr]
    have hattrA : ((G.addNode a "author").addNode s "subreddit").nodeAttr a
        = some (some "author") := by
      rw [nodeAttr_addNode_other has, nodeAttr_addNode_self]
    have hattrS : ((G.addNode a "author").addNode s "subreddit").nodeAttr s
        = some (some "subreddit") := nodeAttr_addNode_self _ s _
    have hmem := mem_eset_keys hp
    rcases hmem with ⟨q, hq, he⟩ | he
    · have hold := hG.2 q hq
      have hq1 : q.1.1 ≠ s := by
        intro hc
        rcases hG.1 q.1.1 (some "author") hold.1 with ⟨_, hmem1⟩ | ⟨hcon, _⟩
        · exact hnc q.1.1 hmem1 (hc ▸ hmemS)
        · exact absurd hcon (by decide)
      have hq2 : q.1.2 ≠ a := by
        intro hc
        rcases hG.1 q.1.2 (some "subreddit") hold.2 with ⟨hcon, _⟩ | ⟨_, hmem2⟩
        · exact absurd hcon (by decide)
        · exact hnc q.1.2 (hc ▸ hmemA) hmem2
      rw [he]
      constructor
      · by_cases hqa : q.1.1 = a
        · rw [hqa]
          exact hattrA
        · rw [nodeAttr_addNode_other hq1, nodeAttr_addNode_other hqa]
          exact hold.1
      · by_cases hqs : q.1.2 = s
        · rw [hqs]
          exact hattrS
        · rw [nodeAttr_addNode_other hqs, nodeAttr_addNode_other hq2]
          exact hold.2
    · rw [he]
      exact ⟨hattrA, hattrS⟩

/-- The bipartite invariant holds for the graph built from a record stream
with no author-subreddit name collision. -/
theorem bipInv_build {rs : List Record} (hnc : NoCollision rs) :
    BipInv rs (build_bipartite_graph rs) := by
  have hbase : BipInv rs NXGraph.empty := by
    constructor
    · intro x a hx
      cases hx
    · intro p hp
      cases hp
  have hfold : ∀ (l : List Record), (∀ r ∈ l, r ∈ rs) → ∀ G, BipInv rs G →
      BipInv rs (l.foldl processRecord G) := by
    intro l
    induction l with
    | nil => exact fun _ _ hG => hG
    | cons r l ih =>
        intro hsub G hG
        rw [List.foldl_cons]
        exact ih (fun r' hr' => hsub r' (List.mem_cons_of_mem r hr'))
          (processRecord G r) (bipInv_step hnc (hsub r (List.mem_cons_self r l)) hG)
  exact hfold rs (fun _ h => h) NXGraph.empty hbase

theorem mem_keys_dset {α : Type} {x k : String} (l : List (String × α)) (v : α) :
    x ∈ (dset l k v).map (fun p => p.1) ↔ x ∈ l.map (fun p => p.1) ∨ x = k := by
  induction l with
  | nil => simp [dset]
  | cons p l ih =>
      by_cases hp : p.1 = k
      · simp only [dset, hp, beq_self_eq_true, if_true, List.map_cons, List.mem_cons]
        tauto
      · have hb : (p.1 == k) = false := by simp [hp]
        simp only [dset, hb, Bool.false_eq_true, if_false, List.map_cons, List.mem_cons, ih]
        tauto

theorem nodup_keys_dset {α : Type} {l : List (String × α)}
    (h : (l.map (fun p => p.1)).Nodup) (k : String) (v : α) :
    ((dset l k v).map (fun p => p.1)).Nodup := by
  induction l with
  | nil => simp [dset]
  | cons p l ih =>
      rw [List.map_cons, List.nodup_cons] at h
      by_cases hp : p.1 = k
      · simp only [dset, hp, beq_self_eq_true, if_true, List.map_cons, List.nodup_cons]
        exact ⟨hp ▸ h.1, h.2⟩
      · have hb : (p.1 == k) = false := by simp [hp]
        simp only [dset, hb, Bool.false_eq_true, if_false, List.map_cons, List.nodup_cons]
        refine ⟨?_, ih h.2⟩
        rw [mem_keys_dset]
        rintro (hc | hc)
        · exact h.1 hc
        · exact hp hc

theorem edgeKeysOK_eset {es : EdgeList} (h : edgeKeysOK es = true) (u v : Node) (w : ℚ) :
    edgeKeysOK (eset es u v w) = true := by
  induction es with
  | nil => rfl
  | cons p es ih =>
      rw [show edgeKeysOK (p :: es)
          = (es.all (fun q => !(ekey q.1 p.1.1 p.1.2)) && edgeKeysOK es) from rfl,
        Bool.and_eq_true] at h
      show edgeKeysOK (if ekey p.1 u v = true then (p.1, w) :: es else p :: eset es u v w) = true
      by_cases hq : ekey p.1 u v = true
      · rw [if_pos hq]
        show (es.all (fun q => !(ekey q.1 p.1.1 p.1.2)) && edgeKeysOK es) = true
        rw [Bool.and_eq_true]
        exact ⟨h.1, h.2⟩
      · rw [if_neg hq]
        show ((eset es u v w).all (fun q => !(ekey q.1 p.1.1 p.1.2))
          && edgeKeysOK (eset es u v w)) = true
        rw [Bool.and_eq_true]
        refine ⟨?_, ih h.2⟩
        rw [List.all_eq_true]
        intro q hqmem
        rcases mem_eset_keys hqmem with ⟨q', hq', he⟩ | he
        · rw [List.all_eq_true] at h
          have := h.1 q' hq'
          rw [he]
          exact this
        · rw [he]
          rw [Bool.not_eq_true']
          cases hc : ekey (u, v) p.1.1 p.1.2
          · rfl
          · rw [ekey_flip] at hc
            exact absurd hc hq

theorem hasNode_monotone_addNode {G : NXGraph} {x : Node} (h : G.hasNode x = true)
    (n : Node) (a : String) : (G.addNode n a).hasNode x = true := by
  rw [hasNode_addNode, h]
  rfl

/-- processRecord preserves graph well-formedness. -/
theorem wf_processRecord {G : NXGraph} (h : G.WF) (r : Record) : (processRecord G r).WF := by
  rcases hv : r.author with _ | a
  · rw [processRecord_invalid (Or.inl hv) G]
    exact h
  rcases hsub : r.subreddit with _ | s
  · rw [processRecord_invalid (Or.inr hsub) G]
    exact h
  rw [processRecord_valid hv hsub G]
  obtain ⟨hnod, hok, hends⟩ := h
  refine ⟨?_, ?_, ?_⟩
  · show ((dset (dset G.nodes a (some "author")) s (some "subreddit")).map
      (fun p => p.1)).Nodup
    exact nodup_keys_dset (nodup_keys_dset hnod a (some "author")) s (some "subreddit")
  · exact edgeKeysOK_eset hok a s _
  · intro p hp
    have hNG : ∀ x, ((G.addNode a "author").addNode s "subreddit").hasNode x
        = (G.hasNode x || x == a || x == s) := by
      intro x
      rw [hasNode_addNode, hasNode_addNode, Bool.or_assoc]
    constructor
    · show ((G.addNode a "author").addNode s "subreddit").hasNode p.1.1 = true
      rcases mem_eset_keys hp with ⟨q, hq, he⟩ | he
      · rw [hNG, he, (hends q hq).1]
        rfl
      · rw [hNG, he]
        simp
    · show ((G.addNode a "author").addNode s "subreddit").hasNode p.1.2 = true
      rcases mem_eset_keys hp with ⟨q, hq, he⟩ | he
      · rw [hNG, he, (hends q hq).2]
        rfl
      · rw [hNG, he]
        simp

/-- The built graph is always well-formed. -/
theorem wf_build (rs : List Record) : (build_bipartite_graph rs).WF := by
  have hbase : NXGraph.empty.WF :=
    ⟨List.nodup_nil, rfl, fun p hp => absurd hp (List.not_mem_nil p)⟩
  have hfold : ∀ (l : List Record) (G : NXGraph), G.WF → (l.foldl processRecord G).WF := by
    intro l
    induction l with
    | nil => exact fun _ hG => hG
    | cons r l ih =>
        intro G hG
        rw [List.foldl_cons]
        exact ih (processRecord G r) (wf_processRecord hG r)
  exact hfold rs NXGraph.empty hbase

theorem dget_cons_self {p : Node × Option String} {l : List (Node × Option String)}
    {x : Node} (h : p.1 = x) : dget (p :: l) x = some p.2 := by
  unfold dget
  rw [List.find?_cons_of_pos _ (by simp [h])]
  rfl

theorem dget_cons_other {p : Node × Option String} {l : List (Node × Option String)}
    {x : Node} (h : p.1 ≠ x) : dget (p :: l) x = dget l x := by
  unfold dget
  rw [List.find?_cons_of_neg _ (by simp [h])]

/-- Node membership in the attribute-t slice of a node dictionary with
distinct keys is equivalent to carrying attribute t. -/
theorem mem_filterAttr {l : List (Node × Option String)}
    (h : (l.map (fun p => p.1)).Nodup) (x : Node) (t : String) :
    (x ∈ (l.filter (fun p => p.2 == some t)).map (fun p => p.1)) ↔
      dget l x = some (some t) := by
  induction l with
  | nil => simp [dget]
  | cons p l ih =>
      rw [List.map_cons, List.nodup_cons] at h
      by_cases hx : p.1 = x
      · rw [dget_cons_self hx]
        by_cases hpt : p.2 = some t
        · have hmem : x ∈ (List.filter (fun q => q.2 == some t) (p :: l)).map
              (fun q => q.1) := by
            rw [List.filter_cons_of_pos (by simp [hpt]), List.map_cons]
            exact hx ▸ List.mem_cons_self p.1 _
          constructor
          · intro _
            rw [hpt]
          · intro _
            exact hmem
        · rw [List.filter_cons_of_neg (by simp [hpt])]
          constructor
          · intro hmem
            exfalso
            apply h.1
            obtain ⟨q, hq, hqx⟩ := List.mem_map.mp hmem
            rw [hx]
            exact List.mem_map.mpr ⟨q, (List.mem_filter.mp hq).1, hqx⟩
          · intro hc
            exact absurd (Option.some.inj hc) hpt
      · rw [dget_cons_other hx, ← ih h.2]
        by_cases hpt : (p.2 == some t) = true
        · have hfc : List.filter (fun q => q.2 == some t) (p :: l)
              = p :: List.filter (fun q => q.2 == some t) l := by
            simp only [List.filter_cons, hpt, if_true]
          rw [hfc, List.map_cons, List.mem_cons]
          constructor
          · rintro (hc | hc)
            · exact absurd hc.symm hx
            · exact hc
          · exact Or.inr
        · have hpf : (p.2 == some t) = false := by
            cases hh : (p.2 == some t)
            · rfl
            · exact absurd hh hpt
          have hfc : List.filter (fun q => q.2 == some t) (p :: l)
              = List.filter (fun q => q.2 == some t) l := by
            simp only [List.filter_cons, hpf, Bool.false_eq_true, if_false]
          rw [hfc]

/-- C9 (amended): provided no identifier of the record stream occurs both
as an author and as a subreddit, the built graph keeps the bipartite
invariant: the author and subreddit partitions are disjoint node sets,
every stored edge joins an author-attributed node to a
subreddit-attributed node and never two nodes of one partition (its
endpoints are distinct and carry the two different attributes), and there
is at most one edge per unordered author-subreddit pair. -/
theorem C9_bipartite_invariant (rs : List Record) (hnc : NoCollision rs) :
    (∀ x, ¬(x ∈ authorsOf (build_bipartite_graph rs) ∧
      x ∈ subredditsOf (build_bipartite_graph rs))) ∧
    (∀ p ∈ (build_bipartite_graph rs).edges,
      (build_bipartite_graph rs).nodeAttr p.1.1 = some (some "author") ∧
      (build_bipartite_graph rs).nodeAttr p.1.2 = some (some "subreddit") ∧
      p.1.1 ≠ p.1.2) ∧
    edgeKeysOK (build_bipartite_graph rs).edges = true := by
  have hwf := wf_build rs
  have hinv := bipInv_build hnc
  refine ⟨?_, ?_, hwf.2.1⟩
  · rintro x ⟨hxa, hxs⟩
    have h1 : (build_bipartite_graph rs).nodeAttr x = some (some "author") :=
      (mem_filterAttr hwf.1 x "author").mp hxa
    have h2 : (build_bipartite_graph rs).nodeAttr x = some (some "subreddit") :=
      (mem_filterAttr hwf.1 x "subreddit").mp hxs
    rw [h1] at h2
    exact absurd h2 (by decide)
  · intro p hp
    obtain ⟨ha1, hs1⟩ := hinv.2 p hp
    refine ⟨ha1, hs1, ?_⟩
    intro hc
    rw [hc, hs1] at ha1
    exact absurd ha1 (by decide)

/-- Witness for C9 at a concrete collision-free record stream. -/
theorem C9_bipartite_invariant_witness :
    NoCollision [(⟨some "a1", some "s1", none, none⟩ : Record)] ∧
    edgeKeysOK (build_bipartite_graph
      [(⟨some "a1", some "s1", none, none⟩ : Record)]).edges = true :=
  ⟨by decide, (C9_bipartite_invariant
    [(⟨some "a1", some "s1", none, none⟩ : Record)] (by decide)).2.2⟩

/-- C9 counterexample: on the single record whose author and subreddit are
both the string a, the built graph stores the self-loop edge a-a while
node a carries the subreddit attribute, so this edge does not connect an
author-attributed node to a subreddit-attributed node: it lies inside one
partition. -/
theorem C9_collision_counterexample :
    ((("a", "a"), (1 : ℚ)) ∈
      (build_bipartite_graph [⟨some "a", some "a", none, none⟩]).edges) ∧
    (build_bipartite_graph [⟨some "a", some "a", none, none⟩]).nodeAttr "a"
      = some (some "subreddit") ∧
    ¬ ((build_bipartite_graph [⟨some "a", some "a", none, none⟩]).nodeAttr "a"
      = some (some "author")) := by
  decide

/-- C5 counterexample: on the projection of a single-author record the
graph has exactly one node, yet max_degree_centrality is 1.0 (networkx
degree_centrality assigns 1 to every node of a graph with at most one
node), which is neither null nor 0 as the claim requires for N ≤ 1. -/
theorem C5_single_node_counterexample :
    (compute_metrics (project_authors (build_bipartite_graph
      [⟨some "a1", some "s1", none, none⟩]))).map
        (fun m => (m.n_nodes, m.max_degree_centrality))
      = .ok (1, some (some 1)) ∧
    some (some (1 : ℚ)) ≠ some (some (0 : ℚ)) ∧
    some (some (1 : ℚ)) ≠ (none : Option (Option ℚ)) ∧
    some (some (1 : ℚ)) ≠ some (none : Option ℚ) := by
  decide

/-- C5 (amended): for every graph, the max_degree_centrality field of
compute_metrics equals the maximum over nodes of degree/(N-1) when N > 1;
it equals 1.0 when N = 1 (networkx degree_centrality assigns 1 to every
node of a trivial graph, never 0 or null); and the key is absent (outer
none) when N = 0. -/
theorem C5_max_degree_centrality (G : NXGraph) (m : Metrics)
    (h : compute_metrics G = .ok m) :
    (G.nodes.length = 0 → m.max_degree_centrality = none) ∧
    (G.nodes.length = 1 → m.max_degree_centrality = some (some 1)) ∧
    (1 < G.nodes.length → m.max_degree_centrality =
      some (some (((G.nodeNames.map
        (fun u => (G.degree u : ℚ) / ((G.nodes.length : ℚ) - 1))).max?).getD 0))) := by
  by_cases hn : G.nodes.length = 0
  · simp only [compute_metrics, hn, if_pos, reduceIte] at h
    have hm : m = ⟨0, G.edges.length, 0, 0, none, some 0, some 0, none, none⟩ := by
      cases h
      rfl
    subst hm
    refine ⟨fun _ => rfl, fun hc => absurd hc (by rw [hn]; decide), fun hc => absurd hc (by rw [hn]; decide)⟩
  · simp only [compute_metrics, hn, reduceIte] at h
    have hm : m.max_degree_centrality
        = some (some (match (G.nodeNames.map (fun u => G.degCent u)).max? with
                      | some x => x
                      | none => 0)) := by
      cases h
      rfl
    refine ⟨fun hc => absurd hc hn, ?_, ?_⟩
    · intro h1
      rw [hm]
      obtain ⟨p, hp⟩ := List.length_eq_one.mp (show G.nodes.length = 1 from h1)
      have hnn : G.nodeNames = [p.1] := by
        unfold NXGraph.nodeNames
        rw [hp]
        rfl
      have hdc : G.degCent p.1 = 1 := by
        unfold NXGraph.degCent
        rw [if_pos (by rw [h1])]
      rw [hnn, List.map_singleton, hdc]
      rfl
    · intro h1
      rw [hm]
      have hfun : (fun u => G.degCent u)
          = fun u => (G.degree u : ℚ) / ((G.nodes.length : ℚ) - 1) := by
        funext u
        unfold NXGraph.degCent
        rw [if_neg (by omega), mul_one_div]
      rw [hfun]
      cases hmax : (G.nodeNames.map
          (fun u => (G.degree u : ℚ) / ((G.nodes.length : ℚ) - 1))).max? <;> rfl

/-- Witness for C5 at the two-author projection pairP (N = 2 > 1). -/
theorem C5_max_degree_centrality_witness :
    (compute_metrics pairP
      = .ok ⟨2, 1, 1, 1, some 0, some 1, some 2, some 1, some (some 1)⟩) ∧
    (1 < pairP.nodes.length) ∧
    (⟨2, 1, 1, 1, some 0, some 1, some 2, some 1,
        some (some 1)⟩ : Metrics).max_degree_centrality =
      some (some (((pairP.nodeNames.map
        (fun u => (pairP.degree u : ℚ) / ((pairP.nodes.length : ℚ) - 1))).max?).getD 0)) :=
  ⟨by decide, by decide,
   (C5_max_degree_centrality pairP _ (by decide)).2.2 (by decide)⟩

/-- C7 counterexample: with topk = -1 on the two-node projection pairP,
Python slicing returns all but the last element, so the list has length 1
while min(topk, n_nodes) = -1. -/
theorem C7_negative_topk_counterexample :
    (top_influencers_by_centrality pairP (-1)).map (fun l => (l.length : ℤ)) = .ok 1 ∧
    min (-1 : ℤ) (pairP.nodes.length : ℤ) = -1 ∧
    (1 : ℤ) ≠ -1 := by
  decide

/-- C7 (amended): for every projected graph and every topK ≥ 0, the
influencer list has length min(topK, number of nodes), is ordered by
non-increasing degree centrality, and the empty graph yields the empty
list rather than an error; for negative topK Python slice semantics apply
instead. -/
theorem C7_influencer_list (P : NXGraph) (k : ℤ) (hk : 0 ≤ k)
    (l : List InfluencerEntry) (h : top_influencers_by_centrality P k = .ok l) :
    (l.length : ℤ) = min k (P.nodes.length : ℤ) ∧
    l.Pairwise (fun x y => y.degree_centrality ≤ x.degree_centrality) ∧
    (P.nodes.length = 0 → l = []) := by
  by_cases hn : P.nodes.length = 0
  · simp only [top_influencers_by_centrality, hn, reduceIte] at h
    have hl : l = [] := by
      cases h
      rfl
    subst hl
    refine ⟨?_, List.Pairwise.nil, fun _ => rfl⟩
    rw [hn]
    simp
    omega
  · simp only [top_influencers_by_centrality, hn, reduceIte] at h
    have hl : l = (pySlice (P.nodeNames.insertionSort
        (fun a b => P.degCent b ≤ P.degCent a)) k).map
        (fun u => ⟨u, P.degCent u, P.wdegree u⟩) := by
      cases h
      rfl
    subst hl
    have hslice : pySlice (P.nodeNames.insertionSort
        (fun a b => P.degCent b ≤ P.degCent a)) k
        = (P.nodeNames.insertionSort (fun a b => P.degCent b ≤ P.degCent a)).take k.toNat := by
      unfold pySlice
      rw [if_neg (by omega)]
    refine ⟨?_, ?_, fun hc => absurd hc hn⟩
    · rw [List.length_map, hslice, List.length_take, List.length_insertionSort]
      have hnn : P.nodeNames.length = P.nodes.length := by
        unfold NXGraph.nodeNames
        rw [List.length_map]
      rw [hnn, Nat.cast_min, Int.toNat_of_nonneg hk]
    · haveI hTot : IsTotal Node (fun a b => P.degCent b ≤ P.degCent a) :=
        ⟨fun a b => le_total (P.degCent b) (P.degCent a)⟩
      haveI hTrans : IsTrans Node (fun a b => P.degCent b ≤ P.degCent a) :=
        ⟨fun _ _ _ h1 h2 => le_trans h2 h1⟩
      have hsorted := List.sorted_insertionSort
        (fun a b => P.degCent b ≤ P.degCent a) P.nodeNames
      rw [List.pairwise_map]
      rw [hslice]
      exact List.Pairwise.take hsorted

/-- Witness for C7 at pairP with topK = 10. -/
theorem C7_influencer_list_witness :
    (0 : ℤ) ≤ 10 ∧
    top_influencers_by_centrality pairP 10
      = .ok [⟨"a1", 1, 1⟩, ⟨"a2", 1, 1⟩] ∧
    ((([(⟨"a1", 1, 1⟩ : InfluencerEntry), ⟨"a2", 1, 1⟩]).length : ℤ)
      = min 10 (pairP.nodes.length : ℤ)) :=
  ⟨by decide, by decide,
   (C7_influencer_list pairP 10 (by decide) _ (by decide)).1⟩

/-- C3: for every well-formed graph, compute_metrics and
top_influencers_by_centrality are total: they return an ok value (no
exception escapes; every fallible sub-computation is caught), and on the
empty graph the metrics degrade to the zeroed/null record instead of a
raised fault. -/
theorem C3_totality (G : NXGraph) (_h : G.WF) :
    (∃ m, compute_metrics G = .ok m) ∧
    (∀ k : ℤ, ∃ l, top_influencers_by_centrality G k = .ok l) ∧
    (G.nodes.length = 0 →
      compute_metrics G = .ok ⟨0, G.edges.length, 0, 0, none, some 0, some 0, none, none⟩) := by
  refine ⟨?_, ?_, ?_⟩
  · by_cases hn : G.nodes.length = 0
    · exact ⟨_, by simp [compute_metrics, hn]; rfl⟩
    · exact ⟨_, by simp [compute_metrics, hn]; rfl⟩
  · intro k
    by_cases hn : G.nodes.length = 0
    · exact ⟨_, by simp [top_influencers_by_centrality, hn]; rfl⟩
    · exact ⟨_, by simp [top_influencers_by_centrality, hn]; rfl⟩
  · intro hn
    simp [compute_metrics, hn]
    rfl

/-- Witness for C3 at the empty graph. -/
theorem C3_totality_witness :
    NXGraph.empty.WF ∧ (∃ m, compute_metrics NXGraph.empty = .ok m) :=
  ⟨by decide, (C3_totality NXGraph.empty (by decide)).1⟩

theorem nbrsFun_eq_some {p : (Node × Node) × ℚ} {u x : Node}
    (hf : (if p.1.1 == u then some p.1.2
           else if p.1.2 == u then some p.1.1 else none) = some x) :
    ekey p.1 u x = true := by
  rw [ekey_eq_true]
  by_cases h1 : p.1.1 = u
  · simp only [h1, beq_self_eq_true, reduceIte, Option.some.injEq] at hf
    exact Or.inl ⟨h1, hf⟩
  · have hb1 : (p.1.1 == u) = false := by simp [h1]
    simp only [hb1, Bool.false_eq_true, reduceIte] at hf
    by_cases h2 : p.1.2 = u
    · simp only [h2, beq_self_eq_true, reduceIte, Option.some.injEq] at hf
      exact Or.inr ⟨hf, h2⟩
    · have hb2 : (p.1.2 == u) = false := by simp [h2]
      simp only [hb2, Bool.false_eq_true, reduceIte] at hf
      cases hf

theorem nbrsFun_of_ekey {p : (Node × Node) × ℚ} {u x : Node}
    (hk : ekey p.1 u x = true) :
    (if p.1.1 == u then some p.1.2
     else if p.1.2 == u then some p.1.1 else none) = some x := by
  rw [ekey_eq_true] at hk
  rcases hk with ⟨h1, h2⟩ | ⟨h1, h2⟩
  · simp only [h1, beq_self_eq_true, reduceIte]
    rw [h2]
  · by_cases h0 : p.1.1 = u
    · simp only [h0, beq_self_eq_true, reduceIte]
      rw [h2, ← h0, h1]
    · have hb : (p.1.1 == u) = false := by simp [h0]
      simp only [hb, Bool.false_eq_true, reduceIte, h2, beq_self_eq_true]
      rw [h1]

theorem mem_nbrs {G : NXGraph} {u x : Node} :
    x ∈ G.nbrs u ↔ G.hasEdge u x = true := by
  unfold NXGraph.nbrs NXGraph.hasEdge ehas
  rw [List.mem_filterMap, List.any_eq_true]
  constructor
  · rintro ⟨p, hp, hf⟩
    exact ⟨p, hp, nbrsFun_eq_some hf⟩
  · rintro ⟨p, hp, hk⟩
    exact ⟨p, hp, nbrsFun_of_ekey hk⟩

theorem nbrs_symm {G : NXGraph} {u x : Node} : x ∈ G.nbrs u ↔ u ∈ G.nbrs x := by
  rw [mem_nbrs, mem_nbrs]
  unfold NXGraph.hasEdge ehas
  have hfun : (fun p : (Node × Node) × ℚ => ekey p.1 u x)
      = fun p : (Node × Node) × ℚ => ekey p.1 x u :=
    funext fun p => ekey_of_sameU (Or.inr ⟨rfl, rfl⟩) p.1
  rw [hfun]

theorem edgeKeysOK_pairwise {es : EdgeList} (h : edgeKeysOK es = true) :
    es.Pairwise (fun p q => ekey q.1 p.1.1 p.1.2 = false) := by
  induction es with
  | nil => exact List.Pairwise.nil
  | cons p es ih =>
      rw [show edgeKeysOK (p :: es)
          = (es.all (fun q => !(ekey q.1 p.1.1 p.1.2)) && edgeKeysOK es) from rfl,
        Bool.and_eq_true] at h
      refine List.Pairwise.cons ?_ (ih h.2)
      intro q hq
      have hz := List.all_eq_true.mp h.1 q hq
      rwa [Bool.not_eq_true'] at hz

theorem nbrs_nodup {G : NXGraph} (h : G.WF) (u : Node) : (G.nbrs u).Nodup := by
  unfold NXGraph.nbrs
  have hpw := edgeKeysOK_pairwise h.2.1
  refine List.Pairwise.filterMap _ ?_ hpw
  intro p q hpq x hx y hy
  rw [Option.mem_def] at hx hy
  have hkp := nbrsFun_eq_some hx
  have hkq := nbrsFun_eq_some hy
  intro hxy
  subst hxy
  rcases (ekey_eq_true p.1 u x).mp hkp with ⟨h1, h2⟩ | ⟨h1, h2⟩
  · rw [h1, h2] at hpq
    rw [hkq] at hpq
    cases hpq
  · rw [h1, h2] at hpq
    have hcomm : ekey q.1 x u = ekey q.1 u x :=
      ekey_of_sameU (Or.inr ⟨rfl, rfl⟩) q.1
    rw [hcomm, hkq] at hpq
    cases hpq

theorem inter_length_sharedCount {G : NXGraph} (h : G.WF) (u v : Node) :
    ((G.nbrs u).inter (G.nbrs v)).length = sharedCount G u v := by
  unfold sharedCount
  have hnd : ((G.nbrs u).inter (G.nbrs v)).Nodup :=
    List.Nodup.filter _ (nbrs_nodup h u)
  rw [← List.toFinset_card_of_nodup hnd]
  rw [show (G.nbrs u).inter (G.nbrs v) = (G.nbrs u) ∩ (G.nbrs v) from rfl,
    List.toFinset_inter]

theorem ensureNode_edges (G : NXGraph) (n : Node) : (G.ensureNode n).edges = G.edges := by
  unfold NXGraph.ensureNode
  split <;> rfl

theorem addEdge_edges (G : NXGraph) (u v : Node) (w : ℚ) :
    (G.addEdge u v w).edges = eset G.edges u v w := by
  show eset ((G.ensureNode u).ensureNode v).edges u v w = eset G.edges u v w
  rw [ensureNode_edges, ensureNode_edges]

theorem addEdge_of_hasNode {P : NXGraph} {u v : Node} (hu : P.hasNode u = true)
    (hv : P.hasNode v = true) (w : ℚ) :
    P.addEdge u v w = ⟨P.nodes, eset P.edges u v w⟩ := by
  unfold NXGraph.addEdge
  rw [ensureNode_of_hasNode hu, ensureNode_of_hasNode hv]

theorem foldAdd_nodes (W : Node → Node → ℚ) (L : List (Node × Node)) :
    ∀ (P : NXGraph), (∀ uv ∈ L, P.hasNode uv.1 = true ∧ P.hasNode uv.2 = true) →
    (L.foldl (fun Q uv => Q.addEdge uv.1 uv.2 (W uv.1 uv.2)) P).nodes = P.nodes := by
  induction L with
  | nil =>
      intro P _
      rfl
  | cons uv L ih =>
      intro P h
      rw [List.foldl_cons,
        addEdge_of_hasNode (h uv (List.mem_cons_self uv L)).1
          (h uv (List.mem_cons_self uv L)).2]
      exact ih ⟨P.nodes, eset P.edges uv.1 uv.2 (W uv.1 uv.2)⟩
        (fun x hx => h x (List.mem_cons_of_mem uv hx))

theorem foldAdd_edgeWeight (W : Node → Node → ℚ) (hW : ∀ a b, W a b = W b a)
    (L : List (Node × Node)) :
    ∀ (P : NXGraph) (x y : Node),
    elookup (L.foldl (fun Q uv => Q.addEdge uv.1 uv.2 (W uv.1 uv.2)) P).edges x y
      = if L.any (fun uv => ekey uv x y) then some (W x y)
        else elookup P.edges x y := by
  induction L with
  | nil =>
      intro P x y
      simp
  | cons uv L ih =>
      intro P x y
      rw [List.foldl_cons, ih, List.any_cons]
      by_cases hany : L.any (fun uv => ekey uv x y) = true
      · rw [hany, Bool.or_true, if_pos rfl, if_pos rfl]
      · have hany' : L.any (fun uv => ekey uv x y) = false := by
          cases hq : L.any (fun uv => ekey uv x y)
          · rfl
          · exact absurd hq hany
        rw [hany', Bool.or_false, addEdge_edges, if_neg Bool.false_ne_true]
        by_cases hk : ekey uv x y = true
        · rw [if_pos hk]
          have hsame : sameU uv.1 uv.2 x y := by
            rw [ekey_eq_true] at hk
            rcases hk with ⟨h1, h2⟩ | ⟨h1, h2⟩
            · exact Or.inl ⟨h1.symm, h2.symm⟩
            · exact Or.inr ⟨h2.symm, h1.symm⟩
          rw [← elookup_congr hsame (eset P.edges uv.1 uv.2 (W uv.1 uv.2))]
          rw [elookup_eset_self]
          rcases hsame with ⟨h1, h2⟩ | ⟨h1, h2⟩
          · rw [h1, h2]
          · rw [h1, h2, hW]
        · rw [if_neg hk]
          apply elookup_eset_other
          intro hc
          apply hk
          rw [ekey_eq_true]
          rcases hc with ⟨h1, h2⟩ | ⟨h1, h2⟩
          · exact Or.inl ⟨h1.symm, h2.symm⟩
          · exact Or.inr ⟨h2.symm, h1.symm⟩

/-- In a graph satisfying the bipartite invariant, a neighbor of an
author-attributed node carries the subreddit attribute. -/
theorem attr_of_nbr_author {rs : List Record} {G : NXGraph} (hG : BipInv rs G)
    {u c : Node} (hu : G.nodeAttr u = some (some "author")) (hc : c ∈ G.nbrs u) :
    G.nodeAttr c = some (some "subreddit") := by
  rw [mem_nbrs] at hc
  unfold NXGraph.hasEdge ehas at hc
  rw [List.any_eq_true] at hc
  obtain ⟨p, hp, hk⟩ := hc
  obtain ⟨ha, hs⟩ := hG.2 p hp
  rcases (ekey_eq_true p.1 u c).mp hk with ⟨h1, h2⟩ | ⟨h1, h2⟩
  · rw [← h2]
    exact hs
  · rw [h2, hu] at hs
    exact absurd (Option.some.inj hs) (by decide)

/-- In a graph satisfying the bipartite invariant, a neighbor of a
subreddit-attributed node carries the author attribute. -/
theorem attr_of_nbr_subreddit {rs : List Record} {G : NXGraph} (hG : BipInv rs G)
    {c b : Node} (hc : G.nodeAttr c = some (some "subreddit")) (hb : b ∈ G.nbrs c) :
    G.nodeAttr b = some (some "author") := by
  rw [mem_nbrs] at hb
  unfold NXGraph.hasEdge ehas at hb
  rw [List.any_eq_true] at hb
  obtain ⟨p, hp, hk⟩ := hb
  obtain ⟨ha, hs⟩ := hG.2 p hp
  rcases (ekey_eq_true p.1 c b).mp hk with ⟨h1, h2⟩ | ⟨h1, h2⟩
  · rw [h1, hc] at ha
    exact absurd (Option.some.inj ha) (by decide)
  · rw [← h1]
    exact ha

theorem mem_nbrs2 {G : NXGraph} {u v : Node} :
    v ∈ nbrs2 G u ↔ (v ≠ u ∧ ∃ c, c ∈ G.nbrs u ∧ v ∈ G.nbrs c) := by
  unfold nbrs2
  rw [List.mem_filter, List.mem_dedup, List.mem_flatMap]
  constructor
  · rintro ⟨⟨c, hc1, hc2⟩, hne⟩
    refine ⟨by simpa using hne, c, hc1, hc2⟩
  · rintro ⟨hne, c, hc1, hc2⟩
    exact ⟨⟨c, hc1, hc2⟩, by simpa using hne⟩

theorem sharedCount_comm (G : NXGraph) (u v : Node) :
    sharedCount G u v = sharedCount G v u := by
  unfold sharedCount
  rw [Finset.inter_comm]

/-- A second neighbor of an author is a distinct author sharing at least
one community with it. -/
theorem nbrs2_author_mem {rs : List Record} {G : NXGraph} (hG : BipInv rs G)
    (hwf : G.WF) {a b : Node} (ha : a ∈ authorsOf G) (hb : b ∈ nbrs2 G a) :
    b ≠ a ∧ b ∈ authorsOf G ∧ 0 < sharedCount G a b := by
  rw [mem_nbrs2] at hb
  obtain ⟨hne, c, hc1, hc2⟩ := hb
  have hattrA := (mem_filterAttr hwf.1 a "author").mp ha
  have hattrC := attr_of_nbr_author hG hattrA hc1
  have hattrB := attr_of_nbr_subreddit hG hattrC hc2
  refine ⟨hne, (mem_filterAttr hwf.1 b "author").mpr hattrB, ?_⟩
  rw [sharedCount, Finset.card_pos]
  exact ⟨c, Finset.mem_inter.mpr
    ⟨List.mem_toFinset.mpr hc1, List.mem_toFinset.mpr (nbrs_symm.mp hc2)⟩⟩

theorem projPairs_any {G : NXGraph} {sel : List Node} {x y : Node} :
    (projPairs G sel).any (fun uv => ekey uv x y) = true ↔
      (x ∈ sel ∧ y ∈ nbrs2 G x) ∨ (y ∈ sel ∧ x ∈ nbrs2 G y) := by
  unfold projPairs
  rw [List.any_eq_true]
  constructor
  · rintro ⟨uv, huv, hk⟩
    rw [List.mem_flatMap] at huv
    obtain ⟨u, hu, hmap⟩ := huv
    rw [List.mem_map] at hmap
    obtain ⟨v, hv, heq⟩ := hmap
    subst heq
    rcases (ekey_eq_true (u, v) x y).mp hk with ⟨h1, h2⟩ | ⟨h1, h2⟩
    · subst h1
      subst h2
      exact Or.inl ⟨hu, hv⟩
    · subst h1
      subst h2
      exact Or.inr ⟨hu, hv⟩
  · rintro (⟨h1, h2⟩ | ⟨h1, h2⟩)
    · exact ⟨(x, y), List.mem_flatMap.mpr ⟨x, h1, List.mem_map.mpr ⟨y, h2, rfl⟩⟩,
        ekey_self x y⟩
    · refine ⟨(y, x), List.mem_flatMap.mpr ⟨y, h1, List.mem_map.mpr ⟨x, h2, rfl⟩⟩, ?_⟩
      rw [ekey_eq_true]
      exact Or.inr ⟨rfl, rfl⟩

/-- Under the bipartite invariant, the projection loop inserts an edge at
the unordered pair of x and y iff x and y are distinct authors sharing at
least one community. -/
theorem projCond_iff {rs : List Record} {G : NXGraph} (hG : BipInv rs G)
    (hwf : G.WF) (x y : Node) :
    ((x ∈ authorsOf G ∧ y ∈ nbrs2 G x) ∨ (y ∈ authorsOf G ∧ x ∈ nbrs2 G y)) ↔
      (x ≠ y ∧ x ∈ authorsOf G ∧ y ∈ authorsOf G ∧ 0 < sharedCount G x y) := by
  constructor
  · rintro (⟨h1, h2⟩ | ⟨h1, h2⟩)
    · obtain ⟨hne, hmem, hpos⟩ := nbrs2_author_mem hG hwf h1 h2
      exact ⟨hne.symm, h1, hmem, hpos⟩
    · obtain ⟨hne, hmem, hpos⟩ := nbrs2_author_mem hG hwf h1 h2
      exact ⟨hne, hmem, h1, by rwa [sharedCount_comm]⟩
  · rintro ⟨hne, hx, hy, hpos⟩
    rw [sharedCount, Finset.card_pos] at hpos
    obtain ⟨c, hc⟩ := hpos
    rw [Finset.mem_inter, List.mem_toFinset, List.mem_toFinset] at hc
    refine Or.inl ⟨hx, ?_⟩
    rw [mem_nbrs2]
    exact ⟨hne.symm, c, hc.1, nbrs_symm.mp hc.2⟩

theorem hasNode_P0 {G : NXGraph} {sel : List Node} (x : Node) :
    (NXGraph.mk (sel.map (fun n => (n, (G.nodeAttr n).getD none))) []).hasNode x = true
      ↔ x ∈ sel := by
  unfold NXGraph.hasNode
  rw [List.any_eq_true]
  constructor
  · rintro ⟨p, hp, hpx⟩
    rw [List.mem_map] at hp
    obtain ⟨n, hn, he⟩ := hp
    have hnx : n = x := by
      rw [← he] at hpx
      simpa using hpx
    exact hnx ▸ hn
  · intro hx
    exact ⟨(x, (G.nodeAttr x).getD none), List.mem_map.mpr ⟨x, hx, rfl⟩, by simp⟩

/-- The node dictionary of the projection equals the selected nodes with
their attributes whenever every inserted pair stays inside the selected
set. -/
theorem wpg_nodes {G : NXGraph} {sel : List Node}
    (h : ∀ uv ∈ projPairs G sel, uv.1 ∈ sel ∧ uv.2 ∈ sel) :
    (weighted_projected_graph G sel).nodes
      = sel.map (fun n => (n, (G.nodeAttr n).getD none)) := by
  unfold weighted_projected_graph
  exact foldAdd_nodes (fun a b => (((G.nbrs a).inter (G.nbrs b)).length : ℚ))
    (projPairs G sel) _ (fun uv huv =>
      ⟨(hasNode_P0 uv.1).mpr (h uv huv).1, (hasNode_P0 uv.2).mpr (h uv huv).2⟩)

/-- The edge weights of the projection, in closed form. -/
theorem wpg_edgeWeight {G : NXGraph} {sel : List Node}
    (hW : ∀ a b : Node, (((G.nbrs a).inter (G.nbrs b)).length : ℚ)
      = (((G.nbrs b).inter (G.nbrs a)).length : ℚ)) (x y : Node) :
    (weighted_projected_graph G sel).edgeWeight x y
      = if (projPairs G sel).any (fun uv => ekey uv x y) = true
        then some ((((G.nbrs x).inter (G.nbrs y)).length : ℚ))
        else none := by
  unfold weighted_projected_graph NXGraph.edgeWeight
  rw [foldAdd_edgeWeight (fun a b => (((G.nbrs a).inter (G.nbrs b)).length : ℚ)) hW
    (projPairs G sel)]
  rfl

/-- C1: for a record stream with no author-subreddit name collision (so
that the built graph is genuinely bipartite), the projection onto authors
has node list exactly the author nodes of the bipartite graph; it has an
edge between x and y with weight the number of distinct shared communities
exactly when x and y are distinct authors sharing at least one community
(the weight never depends on the bipartite edge weights), and no edge
otherwise; it has no self-loops; and zero authors yield the empty
projection rather than an error. -/
theorem C1_projection (rs : List Record) (hnc : NoCollision rs) :
    (project_authors (build_bipartite_graph rs)).nodeNames
      = authorsOf (build_bipartite_graph rs) ∧
    (∀ x y, (project_authors (build_bipartite_graph rs)).edgeWeight x y
      = if x ≠ y ∧ x ∈ authorsOf (build_bipartite_graph rs) ∧
            y ∈ authorsOf (build_bipartite_graph rs) ∧
            0 < sharedCount (build_bipartite_graph rs) x y
        then some ((sharedCount (build_bipartite_graph rs) x y : ℚ))
        else none) ∧
    (∀ x, (project_authors (build_bipartite_graph rs)).hasEdge x x = false) ∧
    (authorsOf (build_bipartite_graph rs) = [] →
      project_authors (build_bipartite_graph rs) = NXGraph.empty) := by
  have hwf := wf_build rs
  have hinv := bipInv_build hnc
  have hW : ∀ a b : Node, ((((build_bipartite_graph rs).nbrs a).inter
      ((build_bipartite_graph rs).nbrs b)).length : ℚ)
      = ((((build_bipartite_graph rs).nbrs b).inter
      ((build_bipartite_graph rs).nbrs a)).length : ℚ) := by
    intro a b
    rw [inter_length_sharedCount hwf, inter_length_sharedCount hwf, sharedCount_comm]
  have hpp : ∀ uv ∈ projPairs (build_bipartite_graph rs)
      (authorsOf (build_bipartite_graph rs)),
      uv.1 ∈ authorsOf (build_bipartite_graph rs) ∧
      uv.2 ∈ authorsOf (build_bipartite_graph rs) := by
    intro uv huv
    unfold projPairs at huv
    rw [List.mem_flatMap] at huv
    obtain ⟨u, hu, hmap⟩ := huv
    rw [List.mem_map] at hmap
    obtain ⟨v, hv, heq⟩ := hmap
    subst heq
    exact ⟨hu, (nbrs2_author_mem hinv hwf hu hv).2.1⟩
  have hweights : ∀ x y, (project_authors (build_bipartite_graph rs)).edgeWeight x y
      = if x ≠ y ∧ x ∈ authorsOf (build_bipartite_graph rs) ∧
            y ∈ authorsOf (build_bipartite_graph rs) ∧
            0 < sharedCount (build_bipartite_graph rs) x y
        then some ((sharedCount (build_bipartite_graph rs) x y : ℚ))
        else none := by
    intro x y
    unfold project_authors
    rw [wpg_edgeWeight hW x y]
    by_cases hc : x ≠ y ∧ x ∈ authorsOf (build_bipartite_graph rs) ∧
        y ∈ authorsOf (build_bipartite_graph rs) ∧
        0 < sharedCount (build_bipartite_graph rs) x y
    · rw [if_pos hc, if_pos (projPairs_any.mpr ((projCond_iff hinv hwf x y).mpr hc))]
      rw [inter_length_sharedCount hwf]
    · rw [if_neg hc, if_neg ?_]
      intro hany
      exact hc ((projCond_iff hinv hwf x y).mp (projPairs_any.mp hany))
  refine ⟨?_, hweights, ?_, ?_⟩
  · show (weighted_projected_graph (build_bipartite_graph rs)
      (authorsOf (build_bipartite_graph rs))).nodeNames = _
    unfold NXGraph.nodeNames
    rw [wpg_nodes hpp, List.map_map]
    exact List.map_id _
  · intro x
    rw [hasEdge_eq_isSome, hweights x x, if_neg (fun hq => hq.1 rfl)]
    rfl
  · intro h
    show weighted_projected_graph (build_bipartite_graph rs)
      (authorsOf (build_bipartite_graph rs)) = NXGraph.empty
    rw [h]
    rfl

/-- Witness for C1 at the two-author record stream pairRecords. -/
theorem C1_projection_witness :
    NoCollision pairRecords ∧
    (project_authors (build_bipartite_graph pairRecords)).nodeNames
      = authorsOf (build_bipartite_graph pairRecords) :=
  ⟨by decide, (C1_projection pairRecords (by decide)).1⟩

theorem compute_metrics_ok (G : NXGraph) : compute_metrics G = .ok (metricsOf G) := by
  unfold metricsOf
  by_cases hn : G.nodes.length = 0 <;> simp [compute_metrics, hn] <;> rfl

theorem top_influencers_ok (P : NXGraph) :
    top_influencers_by_centrality P 10 = .ok (influencersOf P) := by
  unfold influencersOf
  by_cases hn : P.nodes.length = 0 <;> simp [top_influencers_by_centrality, hn] <;> rfl

theorem catStepE_ok (rs : List Record)
    (acc : List (String × Metrics) × List (String × InfluencerEntry)) (c : String) :
    catStepE rs acc c = .ok (catStep rs acc c) := by
  unfold catStepE catStep
  dsimp only
  rw [compute_metrics_ok, top_influencers_ok]
  rfl

theorem foldlM_catStepE (rs : List Record) (cs : List String) :
    ∀ acc, cs.foldlM (catStepE rs) acc = .ok (cs.foldl (catStep rs) acc) := by
  induction cs with
  | nil =>
      intro acc
      rfl
  | cons c cs ih =>
      intro acc
      rw [List.foldlM_cons, catStepE_ok]
      show cs.foldlM (catStepE rs) (catStep rs acc c) = _
      rw [ih, List.foldl_cons]

/-- analyze_per_content in closed form: it always returns ok, with the
summary dictionary and influencer rows given by the pure per-category
fold. -/
theorem analyze_per_content_eq (rs : List Record) :
    analyze_per_content rs = .ok
      ⟨((catKeys rs).foldl (catStep rs)
          (dset [] "all" (metricsOf (project_authors (build_bipartite_graph rs))),
           (influencersOf (project_authors (build_bipartite_graph rs))).map
             (fun i => ("all", i)))).1,
       ((catKeys rs).foldl (catStep rs)
          (dset [] "all" (metricsOf (project_authors (build_bipartite_graph rs))),
           (influencersOf (project_authors (build_bipartite_graph rs))).map
             (fun i => ("all", i)))).2⟩ := by
  unfold analyze_per_content
  dsimp only
  rw [compute_metrics_ok, top_influencers_ok]
  show ((catKeys rs).foldlM (catStepE rs) _) >>= _ = _
  rw [foldlM_catStepE]
  rfl

theorem keys_dset_not_mem {α : Type} {l : List (String × α)} {k : String}
    (h : k ∉ l.map (fun p => p.1)) (v : α) :
    (dset l k v).map (fun p => p.1) = l.map (fun p => p.1) ++ [k] := by
  induction l with
  | nil => rfl
  | cons p l ih =>
      rw [List.map_cons, List.mem_cons] at h
      push_neg at h
      have hb : (p.1 == k) = false := by simp [Ne.symm h.1]
      simp only [dset, hb, Bool.false_eq_true, if_false, List.map_cons, ih h.2,
        List.cons_append]

theorem summary_fold_keys (rs : List Record) (cs : List String) :
    ∀ acc : List (String × Metrics) × List (String × InfluencerEntry),
    cs.Nodup → (∀ c ∈ cs, c ∉ acc.1.map (fun p => p.1)) →
    ((cs.foldl (catStep rs) acc).1).map (fun p => p.1)
      = acc.1.map (fun p => p.1) ++ cs := by
  induction cs with
  | nil =>
      intro acc _ _
      simp
  | cons c cs ih =>
      intro acc hnd hmem
      rw [List.foldl_cons]
      rw [List.nodup_cons] at hnd
      have hstep1 : ((catStep rs acc c).1).map (fun p => p.1)
          = acc.1.map (fun p => p.1) ++ [c] :=
        keys_dset_not_mem (hmem c (List.mem_cons_self c cs)) _
      rw [ih (catStep rs acc c) hnd.2 (fun x hx => by
        rw [hstep1, List.mem_append, List.mem_singleton]
        rintro (hc | hc)
        · exact hmem x (List.mem_cons_of_mem c hx) hc
        · exact hnd.1 (hc ▸ hx)), hstep1, List.append_assoc]
      rfl

theorem summary_fold_dget_notmem (rs : List Record) (cs : List String) :
    ∀ (acc : List (String × Metrics) × List (String × InfluencerEntry)) (k : String),
    k ∉ cs → dget ((cs.foldl (catStep rs) acc).1) k = dget acc.1 k := by
  induction cs with
  | nil =>
      intro acc k _
      rfl
  | cons c cs ih =>
      intro acc k hk
      rw [List.mem_cons] at hk
      push_neg at hk
      rw [List.foldl_cons, ih (catStep rs acc c) k hk.2]
      exact dget_dset_other hk.1 acc.1 _

theorem summary_fold_dget_mem (rs : List Record) (cs : List String) :
    ∀ (acc : List (String × Metrics) × List (String × InfluencerEntry)) (c : String),
    cs.Nodup → c ∈ cs →
    dget ((cs.foldl (catStep rs) acc).1) c
      = some (metricsOf (project_authors (build_bipartite_graph
          (rs.filter (fun r => r.category == some c))))) := by
  induction cs with
  | nil =>
      intro acc c _ hc
      cases hc
  | cons c' cs ih =>
      intro acc c hnd hc
      rw [List.nodup_cons] at hnd
      rw [List.foldl_cons]
      rcases List.mem_cons.mp hc with hc | hc
      · subst hc
        rw [summary_fold_dget_notmem rs cs (catStep rs acc c) c hnd.1]
        exact dget_dset_self acc.1 c _
      · exact ih (catStep rs acc c') c hnd.2 hc

/-- C4 (amended): for every record stream (with no literal category named
all), the summary table has key list exactly "all" followed by the sorted
distinct defaulted categories, with no duplicates and no category dropped;
the row of "all" holds the metrics of the full pipeline; and the row of
each category c holds the metrics of the pipeline on the subset of records
whose category is literally c — records with a missing/null category are
enumerated under the key "unknown" but are excluded from every category
subset (NaN compares unequal to every string), so they contribute only to
the "all" row. -/
theorem C4_category_table (rs : List Record) (hall : "all" ∉ catKeys rs)
    (out : AnalysisOut) (h : analyze_per_content rs = .ok out) :
    (out.summary.map (fun p => p.1) = "all" :: catKeys rs) ∧
    ("all" :: catKeys rs).Nodup ∧
    (∀ c, c ∈ catKeys rs ↔ ∃ r ∈ rs, catOf r = c) ∧
    (catKeys rs).Pairwise (fun a b => a ≤ b) ∧
    dget out.summary "all"
      = some (metricsOf (project_authors (build_bipartite_graph rs))) ∧
    (∀ c ∈ catKeys rs, dget out.summary c
      = some (metricsOf (project_authors (build_bipartite_graph
          (rs.filter (fun r => r.category == some c)))))) := by
  rw [analyze_per_content_eq rs] at h
  have hout : out.summary = ((catKeys rs).foldl (catStep rs)
      (dset [] "all" (metricsOf (project_authors (build_bipartite_graph rs))),
       (influencersOf (project_authors (build_bipartite_graph rs))).map
         (fun i => ("all", i)))).1 := by
    cases h
    rfl
  have hnd : (catKeys rs).Nodup := by
    unfold catKeys
    exact ((List.perm_insertionSort (fun a b : String => a ≤ b)
      ((rs.map catOf).dedup)).symm.nodup (List.nodup_dedup _))
  have hkeys0 : (dset ([] : List (String × Metrics)) "all"
      (metricsOf (project_authors (build_bipartite_graph rs)))).map (fun p => p.1)
      = ["all"] := rfl
  refine ⟨?_, ?_, ?_, ?_, ?_, ?_⟩
  · rw [hout, summary_fold_keys rs (catKeys rs) _ hnd (fun c hc => by
      rw [hkeys0, List.mem_singleton]
      intro hce
      exact hall (hce ▸ hc)), hkeys0]
    rfl
  · rw [List.nodup_cons]
    exact ⟨hall, hnd⟩
  · intro c
    unfold catKeys
    rw [(List.perm_insertionSort _ _).mem_iff, List.mem_dedup, List.mem_map]
  · haveI hTot : IsTotal String (fun a b : String => a ≤ b) :=
      ⟨fun a b => le_total a b⟩
    haveI hTrans : IsTrans String (fun a b : String => a ≤ b) :=
      ⟨fun _ _ _ h1 h2 => le_trans h1 h2⟩
    exact List.sorted_insertionSort _ _
  · rw [hout, summary_fold_dget_notmem rs (catKeys rs) _ "all" hall]
    exact dget_dset_self [] "all" _
  · intro c hc
    rw [hout]
    exact summary_fold_dget_mem rs (catKeys rs) _ c hnd hc

/-- C4 counterexample: on the single record with a null category, the
summary's "unknown" row is computed from the empty subset (0 nodes), while
treating the null category as "unknown" in the partition, as the claim
states, would run the pipeline on that record and yield a 1-node
projection. -/
theorem C4_null_category_counterexample :
    (analyze_per_content [⟨some "a", some "s", none, none⟩]).map
      (fun o => (dget o.summary "unknown").map (fun m => m.n_nodes))
      = .ok (some 0) ∧
    (compute_metrics (project_authors (build_bipartite_graph
      [⟨some "a", some "s", none, none⟩]))).map (fun m => m.n_nodes) = .ok 1 ∧
    (0 : ℕ) ≠ 1 := by
  decide

/-- Witness for C4 at pairRecords (categories all null, so the single key
is "unknown" and the literal-"unknown" subset is empty). -/
theorem C4_category_table_witness :
    ("all" ∉ catKeys pairRecords) ∧
    (∃ out, analyze_per_content pairRecords = .ok out ∧
      out.summary.map (fun p => p.1) = "all" :: catKeys pairRecords) := by
  refine ⟨by decide, ⟨_, analyze_per_content_eq pairRecords, ?_⟩⟩
  exact (C4_category_table pairRecords (by decide) _ (analyze_per_content_eq pairRecords)).1

theorem hasNode_iff_mem {G : NXGraph} {x : Node} :
    G.hasNode x = true ↔ x ∈ G.nodeNames := by
  unfold NXGraph.hasNode NXGraph.nodeNames
  rw [List.any_eq_true]
  constructor
  · rintro ⟨p, hp, hpx⟩
    exact List.mem_map.mpr ⟨p, hp, by simpa using hpx⟩
  · intro hx
    obtain ⟨p, hp, he⟩ := List.mem_map.mp hx
    exact ⟨p, hp, by simp [he]⟩

theorem nbrs_subset_nodeNames {G : NXGraph} (hwf : G.WF) {x y : Node}
    (h : y ∈ G.nbrs x) : y ∈ G.nodeNames := by
  rw [mem_nbrs] at h
  unfold NXGraph.hasEdge ehas at h
  rw [List.any_eq_true] at h
  obtain ⟨p, hp, hk⟩ := h
  have hend := hwf.2.2 p hp
  rcases (ekey_eq_true p.1 x y).mp hk with ⟨h1, h2⟩ | ⟨h1, h2⟩
  · exact hasNode_iff_mem.mp (h2 ▸ hend.2)
  · exact hasNode_iff_mem.mp (h1 ▸ hend.1)

theorem subset_expand (G : NXGraph) (S : Finset Node) : S ⊆ expand G S :=
  Finset.subset_union_left

theorem expand_mono (G : NXGraph) {S T : Finset Node} (h : S ⊆ T) :
    expand G S ⊆ expand G T := by
  unfold expand
  exact Finset.union_subset_union h
    (Finset.biUnion_subset_biUnion_of_subset_left _ h)

theorem ball_succ (G : NXGraph) (u : Node) (k : ℕ) :
    ball G u (k + 1) = expand G (ball G u k) := rfl

theorem ball_subset_succ (G : NXGraph) (u : Node) (k : ℕ) :
    ball G u k ⊆ ball G u (k + 1) := subset_expand G _

theorem mem_ball_self (G : NXGraph) (u : Node) (k : ℕ) : u ∈ ball G u k := by
  induction k with
  | zero => exact Finset.mem_singleton_self u
  | succ k ih => exact ball_subset_succ G u k ih

theorem ball_subset_nodes {G : NXGraph} (hwf : G.WF) {u : Node}
    (hu : u ∈ G.nodeNames) (k : ℕ) : ball G u k ⊆ G.nodeNames.toFinset := by
  induction k with
  | zero =>
      intro x hx
      rw [show ball G u 0 = ({u} : Finset Node) from rfl, Finset.mem_singleton] at hx
      rw [hx]
      exact List.mem_toFinset.mpr hu
  | succ k ih =>
      intro x hx
      rw [ball_succ] at hx
      unfold expand at hx
      rw [Finset.mem_union] at hx
      rcases hx with hx | hx
      · exact ih hx
      · rw [Finset.mem_biUnion] at hx
        obtain ⟨y, hy, hxy⟩ := hx
        unfold NXGraph.nbrsF at hxy
        rw [List.mem_toFinset] at hxy
        exact List.mem_toFinset.mpr (nbrs_subset_nodeNames hwf hxy)

theorem sat_propagate {G : NXGraph} {u : Node} {k : ℕ}
    (h : expand G (ball G u k) ⊆ ball G u k) :
    ∀ m, k ≤ m → ball G u m = ball G u k := by
  intro m hm
  induction hm with
  | refl => rfl
  | step hm ih =>
      rw [ball_succ, ih]
      exact Finset.Subset.antisymm h (subset_expand G _)

theorem reachSet_saturated {G : NXGraph} (hwf : G.WF) {u : Node}
    (hu : u ∈ G.nodeNames) :
    expand G (G.reachSet u) ⊆ G.reachSet u := by
  by_cases hex : ∃ k, k < G.nodes.length ∧ expand G (ball G u k) ⊆ ball G u k
  · obtain ⟨k, hk, hsat⟩ := hex
    have heq := sat_propagate hsat G.nodes.length (le_of_lt hk)
    unfold NXGraph.reachSet
    rw [heq]
    exact hsat
  · exfalso
    push_neg at hex
    have hgrow : ∀ k, k ≤ G.nodes.length → k + 1 ≤ (ball G u k).card := by
      intro k
      induction k with
      | zero =>
          intro _
          have : u ∈ ball G u 0 := mem_ball_self G u 0
          simpa using Finset.card_pos.mpr ⟨u, this⟩
      | succ k ih =>
          intro hk1
          have hk : k < G.nodes.length := lt_of_lt_of_le (Nat.lt_succ_self k) hk1
          have h1 := ih (le_of_lt hk)
          have hss : ball G u k ⊂ ball G u (k + 1) := by
            rw [Finset.ssubset_iff_subset_ne]
            refine ⟨ball_subset_succ G u k, ?_⟩
            intro he
            refine hex k hk ?_
            rw [← ball_succ, ← he]
          have hcl := Finset.card_lt_card hss
          omega
    have hcard := hgrow G.nodes.length (le_refl _)
    have hle : (ball G u G.nodes.length).card ≤ G.nodes.length := by
      calc (ball G u G.nodes.length).card
          ≤ G.nodeNames.toFinset.card :=
            Finset.card_le_card (ball_subset_nodes hwf hu _)
        _ ≤ G.nodeNames.length := List.toFinset_card_le _
        _ = G.nodes.length := by
            unfold NXGraph.nodeNames
            rw [List.length_map]
    omega

theorem ball_subset_reachSet {G : NXGraph} (hwf : G.WF) {u : Node}
    (hu : u ∈ G.nodeNames) (k : ℕ) : ball G u k ⊆ G.reachSet u := by
  induction k with
  | zero =>
      intro x hx
      rw [show ball G u 0 = ({u} : Finset Node) from rfl, Finset.mem_singleton] at hx
      rw [hx]
      exact mem_ball_self G u _
  | succ k ih =>
      rw [ball_succ]
      intro x hx
      exact reachSet_saturated hwf hu (expand_mono G ih hx)

theorem reach_closed {G : NXGraph} (hwf : G.WF) {u x y : Node}
    (hu : u ∈ G.nodeNames) (hx : x ∈ G.reachSet u) (hxy : y ∈ G.nbrs x) :
    y ∈ G.reachSet u := by
  apply reachSet_saturated hwf hu
  unfold expand
  rw [Finset.mem_union, Finset.mem_biUnion]
  exact Or.inr ⟨x, hx, List.mem_toFinset.mpr hxy⟩

theorem reach_trans {G : NXGraph} (hwf : G.WF) {u v : Node}
    (hu : u ∈ G.nodeNames) (hv : v ∈ G.reachSet u) :
    G.reachSet v ⊆ G.reachSet u := by
  have hball : ∀ k, ball G v k ⊆ G.reachSet u := by
    intro k
    induction k with
    | zero =>
        intro x hx
        rw [show ball G v 0 = ({v} : Finset Node) from rfl, Finset.mem_singleton] at hx
        rw [hx]
        exact hv
    | succ k ih =>
        rw [ball_succ]
        intro x hx
        exact reachSet_saturated hwf hu (expand_mono G ih hx)
  exact hball _

theorem reach_symm {G : NXGraph} (hwf : G.WF) {u v : Node}
    (hu : u ∈ G.nodeNames) (hv : v ∈ G.reachSet u) : u ∈ G.reachSet v := by
  unfold NXGraph.reachSet at hv
  have hmain : ∀ k v, v ∈ ball G u k → u ∈ G.reachSet v := by
    intro k
    induction k with
    | zero =>
        intro v hvv
        rw [show ball G u 0 = ({u} : Finset Node) from rfl, Finset.mem_singleton] at hvv
        subst hvv
        exact mem_ball_self G v _
    | succ k ih =>
        intro v hvv
        rw [ball_succ] at hvv
        unfold expand at hvv
        rw [Finset.mem_union] at hvv
        rcases hvv with hvv | hvv
        · exact ih v hvv
        · rw [Finset.mem_biUnion] at hvv
          obtain ⟨x, hx, hvx⟩ := hvv
          unfold NXGraph.nbrsF at hvx
          rw [List.mem_toFinset] at hvx
          have hxv : x ∈ G.nbrs v := nbrs_symm.mp hvx
          have hvnodes : v ∈ G.nodeNames := nbrs_subset_nodeNames hwf hvx
          have hxreachv : x ∈ G.reachSet v := by
            apply ball_subset_reachSet hwf hvnodes 1
            rw [ball_succ]
            unfold expand
            rw [Finset.mem_union, Finset.mem_biUnion]
            exact Or.inr ⟨v, Finset.mem_singleton_self v, List.mem_toFinset.mpr hxv⟩
          exact reach_trans hwf hvnodes hxreachv (ih x hx)
  exact hmain _ v hv

theorem contains_iff {l : List Node} {x : Node} : l.contains x = true ↔ x ∈ l :=
  List.elem_iff

theorem pairwise_edgeKeysOK {es : EdgeList}
    (h : es.Pairwise (fun p q => ekey q.1 p.1.1 p.1.2 = false)) :
    edgeKeysOK es = true := by
  induction es with
  | nil => rfl
  | cons p es ih =>
      rw [List.pairwise_cons] at h
      show (es.all (fun q => !(ekey q.1 p.1.1 p.1.2)) && edgeKeysOK es) = true
      rw [Bool.and_eq_true]
      refine ⟨List.all_eq_true.mpr (fun q hq => ?_), ih h.2⟩
      rw [Bool.not_eq_true']
      exact h.1 q hq

theorem mem_subgraph_nodeNames {G : NXGraph} {S : List Node} {x : Node} :
    x ∈ (G.inducedSubgraph S).nodeNames ↔ x ∈ G.nodeNames ∧ x ∈ S := by
  unfold NXGraph.inducedSubgraph NXGraph.nodeNames
  constructor
  · intro hx
    obtain ⟨p, hp, he⟩ := List.mem_map.mp hx
    rw [List.mem_filter] at hp
    refine ⟨List.mem_map.mpr ⟨p, hp.1, he⟩, ?_⟩
    rw [← he]
    exact contains_iff.mp hp.2
  · rintro ⟨hx, hxS⟩
    obtain ⟨p, hp, he⟩ := List.mem_map.mp hx
    refine List.mem_map.mpr ⟨p, ?_, he⟩
    rw [List.mem_filter]
    exact ⟨hp, contains_iff.mpr (he ▸ hxS)⟩

theorem mem_compOf {G : NXGraph} {u x : Node} :
    x ∈ compOf G u ↔ x ∈ G.nodeNames ∧ x ∈ G.reachSet u := by
  unfold compOf
  rw [List.mem_filter]
  simp only [decide_eq_true_eq]

theorem wf_inducedSubgraph {G : NXGraph} (hwf : G.WF) (S : List Node) :
    (G.inducedSubgraph S).WF := by
  refine ⟨?_, ?_, ?_⟩
  · exact List.Nodup.sublist ((List.filter_sublist _).map _) hwf.1
  · exact pairwise_edgeKeysOK
      (List.Pairwise.sublist (List.filter_sublist _) (edgeKeysOK_pairwise hwf.2.1))
  · intro p hp
    show (G.inducedSubgraph S).hasNode p.1.1 = true ∧
      (G.inducedSubgraph S).hasNode p.1.2 = true
    have hp' : p ∈ G.edges.filter
        (fun q => S.contains q.1.1 && S.contains q.1.2) := hp
    rw [List.mem_filter, Bool.and_eq_true] at hp'
    have hend := hwf.2.2 p hp'.1
    constructor
    · exact hasNode_iff_mem.mpr (mem_subgraph_nodeNames.mpr
        ⟨hasNode_iff_mem.mp hend.1, contains_iff.mp hp'.2.1⟩)
    · exact hasNode_iff_mem.mpr (mem_subgraph_nodeNames.mpr
        ⟨hasNode_iff_mem.mp hend.2, contains_iff.mp hp'.2.2⟩)

theorem mem_subgraph_nbrs {G : NXGraph} {S : List Node} {x y : Node} :
    y ∈ (G.inducedSubgraph S).nbrs x ↔ y ∈ G.nbrs x ∧ x ∈ S ∧ y ∈ S := by
  rw [mem_nbrs, mem_nbrs]
  unfold NXGraph.hasEdge ehas NXGraph.inducedSubgraph
  rw [List.any_eq_true, List.any_eq_true]
  constructor
  · rintro ⟨p, hp, hk⟩
    rw [List.mem_filter, Bool.and_eq_true] at hp
    refine ⟨⟨p, hp.1, hk⟩, ?_, ?_⟩
    · rcases (ekey_eq_true p.1 x y).mp hk with ⟨h1, h2⟩ | ⟨h1, h2⟩
      · exact contains_iff.mp (h1 ▸ hp.2.1)
      · exact contains_iff.mp (h2 ▸ hp.2.2)
    · rcases (ekey_eq_true p.1 x y).mp hk with ⟨h1, h2⟩ | ⟨h1, h2⟩
      · exact contains_iff.mp (h2 ▸ hp.2.2)
      · exact contains_iff.mp (h1 ▸ hp.2.1)
  · rintro ⟨⟨p, hp, hk⟩, hxS, hyS⟩
    refine ⟨p, ?_, hk⟩
    rw [List.mem_filter, Bool.and_eq_true]
    refine ⟨hp, ?_, ?_⟩
    · rcases (ekey_eq_true p.1 x y).mp hk with ⟨h1, h2⟩ | ⟨h1, h2⟩
      · exact contains_iff.mpr (h1 ▸ hxS)
      · exact contains_iff.mpr (h1 ▸ hyS)
    · rcases (ekey_eq_true p.1 x y).mp hk with ⟨h1, h2⟩ | ⟨h1, h2⟩
      · exact contains_iff.mpr (h2 ▸ hyS)
      · exact contains_iff.mpr (h2 ▸ hxS)

theorem reach_lift {G : NXGraph} (hwf : G.WF) {u : Node} (hu : u ∈ G.nodeNames) :
    ∀ (k : ℕ) (x : Node), x ∈ ball G u k →
      x ∈ (G.inducedSubgraph (compOf G u)).reachSet u := by
  have hwfH := wf_inducedSubgraph hwf (compOf G u)
  have huS : u ∈ compOf G u := mem_compOf.mpr ⟨hu, mem_ball_self G u _⟩
  have huH : u ∈ (G.inducedSubgraph (compOf G u)).nodeNames :=
    mem_subgraph_nodeNames.mpr ⟨hu, huS⟩
  intro k
  induction k with
  | zero =>
      intro x hx
      rw [show ball G u 0 = ({u} : Finset Node) from rfl, Finset.mem_singleton] at hx
      subst hx
      exact mem_ball_self _ x _
  | succ k ih =>
      intro x hx
      rw [ball_succ] at hx
      unfold expand at hx
      rw [Finset.mem_union] at hx
      rcases hx with hx | hx
      · exact ih x hx
      · rw [Finset.mem_biUnion] at hx
        obtain ⟨y, hy, hxy⟩ := hx
        unfold NXGraph.nbrsF at hxy
        rw [List.mem_toFinset] at hxy
        have hyH := ih y hy
        have hyNames : y ∈ G.nodeNames := by
          have := ball_subset_nodes hwf hu k hy
          exact List.mem_toFinset.mp this
        have hyReach : y ∈ G.reachSet u := ball_subset_reachSet hwf hu k hy
        have hyS : y ∈ compOf G u := mem_compOf.mpr ⟨hyNames, hyReach⟩
        have hxS : x ∈ compOf G u := mem_compOf.mpr
          ⟨nbrs_subset_nodeNames hwf hxy, reach_closed hwf hu hyReach hxy⟩
        have hxyH : x ∈ (G.inducedSubgraph (compOf G u)).nbrs y :=
          mem_subgraph_nbrs.mpr ⟨hxy, hyS, hxS⟩
        exact reach_closed hwfH huH hyH hxyH

/-- Every member of the component of u is reachable from u inside the
induced subgraph on that component. -/
theorem subgraph_reach_all {G : NXGraph} (hwf : G.WF) {u : Node}
    (hu : u ∈ G.nodeNames) :
    ∀ x ∈ compOf G u, x ∈ (G.inducedSubgraph (compOf G u)).reachSet u :=
  fun x hx => reach_lift hwf hu G.nodes.length x (mem_compOf.mp hx).2

/-- The induced subgraph on a component passes the networkx connectivity
check. -/
theorem subgraph_isConnected {G : NXGraph} (hwf : G.WF) {u : Node}
    (hu : u ∈ G.nodeNames) :
    (G.inducedSubgraph (compOf G u)).isConnected = .ok true := by
  have hwfH := wf_inducedSubgraph hwf (compOf G u)
  have huS : u ∈ compOf G u := mem_compOf.mpr ⟨hu, mem_ball_self G u _⟩
  have huH : u ∈ (G.inducedSubgraph (compOf G u)).nodeNames :=
    mem_subgraph_nodeNames.mpr ⟨hu, huS⟩
  unfold NXGraph.isConnected
  cases hnn : (G.inducedSubgraph (compOf G u)).nodeNames with
  | nil =>
      rw [hnn] at huH
      cases huH
  | cons w rest =>
      have hwH : w ∈ (G.inducedSubgraph (compOf G u)).nodeNames := by
        rw [hnn]
        exact List.mem_cons_self w rest
      have hwS : w ∈ compOf G u := (mem_subgraph_nodeNames.mp hwH).2
      have hwReachU : w ∈ (G.inducedSubgraph (compOf G u)).reachSet u :=
        subgraph_reach_all hwf hu w hwS
      have huReachW : u ∈ (G.inducedSubgraph (compOf G u)).reachSet w :=
        reach_symm hwfH huH hwReachU
      have hsub : (G.inducedSubgraph (compOf G u)).reachSet u ⊆
          (G.inducedSubgraph (compOf G u)).reachSet w :=
        reach_trans hwfH hwH huReachW
      have hall : ((G.inducedSubgraph (compOf G u)).nodeNames.all
          (fun x => decide (x ∈ (G.inducedSubgraph (compOf G u)).reachSet w))) = true := by
        rw [List.all_eq_true]
        intro x hx
        rw [decide_eq_true_eq]
        have hxS : x ∈ compOf G u := (mem_subgraph_nodeNames.mp hx).2
        exact hsub (subgraph_reach_all hwf hu x hxS)
      rw [hnn] at hall
      show Except.ok ((w :: rest).all
        (fun x => decide (x ∈ (G.inducedSubgraph (compOf G u)).reachSet w)))
        = Except.ok true
      rw [hall]

theorem map_fst_filter_contains (S : List Node) :
    ∀ l : List (Node × Option String),
    (l.filter (fun p => S.contains p.1)).map (fun p => p.1)
      = (l.map (fun p => p.1)).filter (fun x => S.contains x) := by
  intro l
  induction l with
  | nil => rfl
  | cons p l ih =>
      by_cases hc : S.contains p.1 = true
      · simp only [List.filter_cons, List.map_cons, hc, if_pos, List.map_cons, ih]
      · simp only [List.filter_cons, List.map_cons, hc, Bool.false_eq_true, if_false, ih]

theorem subgraph_nodeNames_eq (G : NXGraph) (S : List Node) :
    (G.inducedSubgraph S).nodeNames = G.nodeNames.filter (fun x => S.contains x) :=
  map_fst_filter_contains S G.nodes

theorem compOf_filter (G : NXGraph) (u : Node) :
    G.nodeNames.filter (fun x => (compOf G u).contains x) = compOf G u := by
  conv_rhs => rw [compOf]
  apply List.filter_congr
  intro x hx
  rw [Bool.eq_iff_iff, contains_iff, decide_eq_true_eq, mem_compOf]
  exact ⟨fun h => h.2, fun h => ⟨hx, h⟩⟩

theorem subgraph_comp_nodeNames (G : NXGraph) (u : Node) :
    (G.inducedSubgraph (compOf G u)).nodeNames = compOf G u := by
  rw [subgraph_nodeNames_eq, compOf_filter]

theorem subgraph_comp_len (G : NXGraph) (u : Node) :
    (G.inducedSubgraph (compOf G u)).nodes.length = (compOf G u).length := by
  have h := subgraph_comp_nodeNames G u
  calc (G.inducedSubgraph (compOf G u)).nodes.length
      = (G.inducedSubgraph (compOf G u)).nodeNames.length := by
        unfold NXGraph.nodeNames
        rw [List.length_map]
    _ = (compOf G u).length := by rw [h]

theorem avgSPL_comp_ok {G : NXGraph} (hwf : G.WF) {u : Node} (hu : u ∈ G.nodeNames)
    (hlen : 2 ≤ (compOf G u).length) :
    (G.inducedSubgraph (compOf G u)).avgShortestPathLength
      = .ok (aspVal (G.inducedSubgraph (compOf G u))) := by
  have hn := subgraph_comp_len G u
  unfold NXGraph.avgShortestPathLength
  dsimp only
  rw [if_neg (by omega), if_neg (by omega), subgraph_isConnected hwf hu]
  rfl

theorem foldl_max_init_le : ∀ (l : List ℕ) (a : ℕ), a ≤ l.foldl max a := by
  intro l
  induction l with
  | nil => exact fun a => le_refl a
  | cons x l ih => exact fun a => le_trans (le_max_left a x) (ih (max a x))

theorem mem_le_foldl_max : ∀ (l : List ℕ) (a x : ℕ), x ∈ l → x ≤ l.foldl max a := by
  intro l
  induction l with
  | nil =>
      intro a x hx
      cases hx
  | cons y l ih =>
      intro a x hx
      rcases List.mem_cons.mp hx with hx | hx
      · subst hx
        exact le_trans (le_max_right a x) (foldl_max_init_le l (max a x))
      · exact ih (max a y) x hx

theorem foldl_max_le : ∀ (l : List ℕ) (a b : ℕ), a ≤ b → (∀ x ∈ l, x ≤ b) →
    l.foldl max a ≤ b := by
  intro l
  induction l with
  | nil => exact fun a b h _ => h
  | cons y l ih =>
      intro a b ha hall
      rw [List.foldl_cons]
      exact ih (max a y) b (max_le ha (hall y (List.mem_cons_self y l)))
        (fun x hx => hall x (List.mem_cons_of_mem y hx))

theorem pickMaxStep_some (b c : List Node) :
    pickMaxStep (some b) c = if b.length < c.length then some c else some b := rfl

theorem pickMax_go_isSome : ∀ (cs : List (List Node)) (b : List Node),
    ∃ c, cs.foldl pickMaxStep (some b) = some c := by
  intro cs
  induction cs with
  | nil => exact fun b => ⟨b, rfl⟩
  | cons c0 cs ih =>
      intro b
      rw [List.foldl_cons]
      show ∃ c, cs.foldl pickMaxStep (pickMaxStep (some b) c0) = some c
      rw [pickMaxStep_some]
      by_cases h : b.length < c0.length
      · rw [if_pos h]
        exact ih c0
      · rw [if_neg h]
        exact ih b

theorem pickMax_isSome {cs : List (List Node)} (h : cs ≠ []) :
    ∃ c, pickMax cs = some c := by
  unfold pickMax
  cases cs with
  | nil => exact absurd rfl h
  | cons c0 cs =>
      rw [List.foldl_cons]
      exact pickMax_go_isSome cs c0

theorem pickMax_go_spec : ∀ (cs : List (List Node)) (b c : List Node),
    cs.foldl pickMaxStep (some b) = some c →
    (c ∈ cs ∨ c = b) ∧ (∀ x ∈ cs, x.length ≤ c.length) ∧ b.length ≤ c.length := by
  intro cs
  induction cs with
  | nil =>
      intro b c h
      rw [List.foldl_nil] at h
      cases h
      exact ⟨Or.inr rfl, fun x hx => absurd hx (List.not_mem_nil x), le_refl _⟩
  | cons c0 cs ih =>
      intro b c h
      rw [List.foldl_cons] at h
      by_cases hlt : b.length < c0.length
      · have hstep : pickMaxStep (some b) c0 = some c0 := by
          rw [pickMaxStep_some, if_pos hlt]
        rw [hstep] at h
        obtain ⟨hmem, hbound, hle⟩ := ih c0 c h
        refine ⟨?_, ?_, le_trans (le_of_lt hlt) hle⟩
        · rcases hmem with hm | hm
          · exact Or.inl (List.mem_cons_of_mem _ hm)
          · exact Or.inl (hm ▸ List.mem_cons_self c0 cs)
        · intro x hx
          rcases List.mem_cons.mp hx with hx | hx
          · exact hx ▸ hle
          · exact hbound x hx
      · have hstep : pickMaxStep (some b) c0 = some b := by
          rw [pickMaxStep_some, if_neg hlt]
        rw [hstep] at h
        obtain ⟨hmem, hbound, hle⟩ := ih b c h
        refine ⟨?_, ?_, hle⟩
        · rcases hmem with hm | hm
          · exact Or.inl (List.mem_cons_of_mem _ hm)
          · exact Or.inr hm
        · intro x hx
          rcases List.mem_cons.mp hx with hx | hx
          · exact hx ▸ le_trans (le_of_not_lt hlt) hle
          · exact hbound x hx

theorem pickMax_spec {cs : List (List Node)} {c : List Node}
    (h : pickMax cs = some c) :
    c ∈ cs ∧ ∀ x ∈ cs, x.length ≤ c.length := by
  unfold pickMax at h
  cases cs with
  | nil => cases h
  | cons c0 cs =>
      rw [List.foldl_cons] at h
      obtain ⟨hmem, hbound, hle⟩ := pickMax_go_spec cs c0 c h
      refine ⟨?_, ?_⟩
      · rcases hmem with hm | hm
        · exact List.mem_cons_of_mem _ hm
        · exact hm ▸ List.mem_cons_self c0 cs
      · intro x hx
        rcases List.mem_cons.mp hx with hx | hx
        · exact hx ▸ hle
        · exact hbound x hx

theorem comps_rep (G : NXGraph) :
    ∀ c ∈ connected_components G, ∃ v ∈ G.nodeNames, c = compOf G v := by
  have hgen : ∀ (l : List Node) (acc : List (List Node) × List Node),
      (∀ v ∈ l, v ∈ G.nodeNames) →
      (∀ c ∈ acc.1, ∃ v ∈ G.nodeNames, c = compOf G v) →
      ∀ c ∈ (l.foldl (ccStep G) acc).1, ∃ v ∈ G.nodeNames, c = compOf G v := by
    intro l
    induction l with
    | nil => exact fun acc _ hacc => hacc
    | cons v l ih =>
        intro acc hl hacc
        rw [List.foldl_cons]
        refine ih (ccStep G acc v) (fun w hw => hl w (List.mem_cons_of_mem v hw)) ?_
        intro c hc
        unfold ccStep at hc
        by_cases hv : acc.2.contains v = true
        · rw [if_pos hv] at hc
          exact hacc c hc
        · rw [if_neg hv] at hc
          rcases List.mem_append.mp hc with hc | hc
          · exact hacc c hc
          · rw [List.mem_singleton] at hc
            exact ⟨v, hl v (List.mem_cons_self v l), hc⟩
  intro c hc
  exact hgen G.nodeNames ([], []) (fun _ h => h)
    (fun c hc => absurd hc (List.not_mem_nil c)) c hc

theorem largest_eq_pickMax {G : NXGraph} {lc : List Node}
    (h : pickMax (connected_components G) = some lc) :
    largestCompSize G = lc.length := by
  obtain ⟨hmem, hbound⟩ := pickMax_spec h
  unfold largestCompSize
  apply le_antisymm
  · refine foldl_max_le _ 0 lc.length (Nat.zero_le _) ?_
    intro x hx
    obtain ⟨c, hc, he⟩ := List.mem_map.mp hx
    exact he ▸ hbound c hc
  · exact mem_le_foldl_max _ 0 lc.length (List.mem_map.mpr ⟨lc, hmem, rfl⟩)

theorem compBlock_small {G : NXGraph} (h : ¬ 1 < largestCompSize G) :
    compBlock G = .ok ((connected_components G).length, largestCompSize G, none) := by
  unfold compBlock
  dsimp only
  rw [if_neg h]
  rfl

theorem compBlock_large {G : NXGraph} (hwf : G.WF) (h : 1 < largestCompSize G) :
    ∃ lc, pickMax (connected_components G) = some lc ∧
      lc ∈ connected_components G ∧
      (∀ c ∈ connected_components G, c.length ≤ lc.length) ∧
      compBlock G = .ok ((connected_components G).length, largestCompSize G,
        some (aspVal (G.inducedSubgraph lc))) := by
  have hne : connected_components G ≠ [] := by
    intro hc
    rw [largestCompSize, hc] at h
    simp at h
  obtain ⟨lc, hlc⟩ := pickMax_isSome hne
  obtain ⟨hmem, hbound⟩ := pickMax_spec hlc
  obtain ⟨v, hv, hcv⟩ := comps_rep G lc hmem
  have hlen : 2 ≤ (compOf G v).length := by
    have heq := largest_eq_pickMax hlc
    rw [← hcv]
    omega
  have haspl : (G.inducedSubgraph lc).avgShortestPathLength
      = .ok (aspVal (G.inducedSubgraph lc)) := by
    rw [hcv]
    exact avgSPL_comp_ok hwf hv hlen
  refine ⟨lc, hlc, hmem, hbound, ?_⟩
  unfold compBlock
  dsimp only
  rw [if_pos h, hlc]
  show ((G.inducedSubgraph lc).avgShortestPathLength >>= fun a =>
    pure ((connected_components G).length, largestCompSize G, some a)) = _
  rw [haspl]
  rfl

/-- C6: the avg_shortest_path field of compute_metrics is null exactly when
the largest connected component has at most one node; otherwise it equals
the breadth-first average shortest-path length over all ordered node pairs
of the induced subgraph of a maximum-size connected component (the one
Python max selects). -/
theorem C6_avg_shortest_path (G : NXGraph) (hwf : G.WF) (m : Metrics)
    (h : compute_metrics G = .ok m) :
    (m.avg_shortest_path = none ↔ largestCompSize G ≤ 1) ∧
    (1 < largestCompSize G →
      ∃ c, c ∈ connected_components G ∧
        (∀ c' ∈ connected_components G, c'.length ≤ c.length) ∧
        m.avg_shortest_path = some (aspVal (G.inducedSubgraph c))) := by
  by_cases hn : G.nodes.length = 0
  · have hnodes : G.nodes = [] := List.length_eq_zero.mp hn
    have hlargest : largestCompSize G = 0 := by
      unfold largestCompSize connected_components NXGraph.nodeNames
      rw [hnodes]
      rfl
    simp only [compute_metrics, hn, reduceIte] at h
    have hm : m.avg_shortest_path = none := by
      cases h
      rfl
    rw [hm, hlargest]
    exact ⟨⟨fun _ => by omega, fun _ => rfl⟩, fun hc => absurd hc (by omega)⟩
  · by_cases hl : 1 < largestCompSize G
    · obtain ⟨lc, hlc, hmem, hbound, hcb⟩ := compBlock_large hwf hl
      simp only [compute_metrics, hn, reduceIte] at h
      rw [hcb] at h
      have hm : m.avg_shortest_path = some (aspVal (G.inducedSubgraph lc)) := by
        cases h
        rfl
      rw [hm]
      refine ⟨⟨fun hc => absurd hc (by simp), fun hc => absurd hl (by omega)⟩,
        fun _ => ⟨lc, hmem, hbound, rfl⟩⟩
    · have hcb := compBlock_small hl
      simp only [compute_metrics, hn, reduceIte] at h
      rw [hcb] at h
      have hm : m.avg_shortest_path = none := by
        cases h
        rfl
      rw [hm]
      exact ⟨⟨fun _ => by omega, fun _ => rfl⟩, fun hc => absurd hc hl⟩

/-- Witness for C6 at the two-author projection pairP, whose single
component has two nodes. -/
theorem C6_avg_shortest_path_witness :
    pairP.WF ∧
    compute_metrics pairP
      = .ok ⟨2, 1, 1, 1, some 0, some 1, some 2, some 1, some (some 1)⟩ ∧
    ((⟨2, 1, 1, 1, some 0, some 1, some 2, some 1,
        some (some 1)⟩ : Metrics).avg_shortest_path = none
      ↔ largestCompSize pairP ≤ 1) :=
  ⟨by decide, by decide,
   (C6_avg_shortest_path pairP (by decide) _ (by decide)).1⟩
